import Mathlib

/-!
# The tictactoe command router (`cmd/cmd.go`)

`cmd.go` builds a tree of `cobra.Command` objects and hands it to cobra for dispatch.

* Part 1 embeds the construction code of `cmd.go` over an explicit heap of command
  objects: `CreateRootCommand`, `CreateCompletionCommand`, `CreateVersionCommand`, with
  the cobra calls they make (`AddCommand`, `SetOut`).
* Part 2 reads the finished heap back as an immutable tree and embeds the part of
  cobra's `ExecuteC` that the commands of this program exercise: command lookup
  (`Find`, `legacyArgs`), `execute`, the default help command and the default
  help and usage templates, on argument vectors of plain words: `ExecuteC` answers
  `none` on any other vector.
* Part 3 extends the dispatch to words that are empty or flag-like: how command lookup
  passes over them, and how a command built by `cmd.go` rejects a flag it does not have.
-/

namespace TicTacToe

/-! ## Part 1: data model -/

/-- The process streams `os.Stdout` and `os.Stderr`. -/
inductive Writer where
  | stdout
  | stderr
  deriving DecidableEq, Repr

/-- The shell selectors of the completion generator: `GenBashCompletion`,
`GenZshCompletion`, `GenFishCompletion`, `GenPowerShellCompletion`. -/
inductive Shell where
  | bash
  | zsh
  | fish
  | powershell
  deriving DecidableEq, Repr

/-- A pointer to a `cobra.Command` object: its index in the heap. -/
abbrev Ptr := Nat

/-- The `Run` closures. Each constructor stands for one function literal, with the
variables it captures.
* `rootHelp`: `func(cmd, args) { cmd.Help() }` (cmd.go 16-18)
* `genBash rootCmd`: `func(cmd, args) { rootCmd.GenBashCompletion(cmd.OutOrStdout()) }`
  (cmd.go 53-55), and likewise `genZsh` (61-63), `genFish` (69-71, which passes `true`),
  `genPowerShell` (77-79); `rootCmd` is the pointer handed to `CreateCompletionCommand`
* `printVersion v`: `func(cmd, args) { cmd.Println(version.TicTacToeVersion) }`
  (cmd.go 91-93), `v` being the value of the build-time constant
* `helpTopic`: the `Run` of the help command cobra adds in `InitDefaultHelpCmd`
* `external tag`: a closure that belongs to a collaborator; what it does is not known here -/
inductive RunFn where
  | rootHelp
  | genBash (rootCmd : Ptr)
  | genZsh (rootCmd : Ptr)
  | genFish (rootCmd : Ptr)
  | genPowerShell (rootCmd : Ptr)
  | printVersion (v : String)
  | helpTopic
  | external (tag : Nat)
  deriving DecidableEq, Repr

/-- A command tree as an immutable value: the spec's Command entity (name and help
texts, optional action, ordered children) with the three more fields of `cobra.Command`
that the embedded cobra code reads. -/
inductive Tree where
  | node (Use Short Long : String) (Run : Option RunFn) (outWriter : Option Writer)
      (commandsMaxCommandPathLen commandsMaxNameLen : Nat) (commands : List Tree)
  deriving Repr

namespace Tree

def Use : Tree → String
  | node u _ _ _ _ _ _ _ => u

def Short : Tree → String
  | node _ s _ _ _ _ _ _ => s

def Long : Tree → String
  | node _ _ l _ _ _ _ _ => l

def Run : Tree → Option RunFn
  | node _ _ _ r _ _ _ _ => r

def outWriter : Tree → Option Writer
  | node _ _ _ _ w _ _ _ => w

def commandsMaxCommandPathLen : Tree → Nat
  | node _ _ _ _ _ n _ _ => n

def commandsMaxNameLen : Tree → Nat
  | node _ _ _ _ _ _ n _ => n

def commands : Tree → List Tree
  | node _ _ _ _ _ _ _ cs => cs

end Tree

/-- A `cobra.Command` object on the heap, with the fields that `cmd.go` sets and the
embedded cobra code reads (`commandsMaxUseLen`, which `AddCommand` also maintains, is read
by no default template and is left out). The defaults are Go's zero values, so that a
structure instance reads like the composite literal
`&cobra.Command{Use: ..., Short: ..., Run: ...}` it embeds.

`subtree` holds the descendants a collaborator's command arrives with. The router never
holds a pointer to them, so they are kept by value. -/
structure Command where
  Use : String
  Short : String := ""
  Long : String := ""
  Run : Option RunFn := none
  commands : List Ptr := []
  parent : Option Ptr := none
  outWriter : Option Writer := none
  commandsMaxCommandPathLen : Nat := 0
  commandsMaxNameLen : Nat := 0
  subtree : List Tree := []
  deriving Repr

/-- The heap: every `cobra.Command` object allocated so far, a pointer being an index. -/
abbrev Heap := List Command

/-- Allocation, `&cobra.Command{...}`: the new object goes to the end of the heap. -/
def alloc (h : Heap) (c : Command) : Ptr × Heap :=
  (h.length, h ++ [c])

/-- Assignment to fields of the object at `p`. -/
def Heap.update (h : Heap) (p : Ptr) (f : Command → Command) : Heap :=
  match h[p]? with
  | some c => h.set p (f c)
  | none => h

/-- The text of `s` before its first space: cobra's
`i := strings.Index(name, " "); if i >= 0 { name = name[:i] }`. -/
def firstWord (s : String) : String :=
  ⟨s.data.takeWhile (fun ch => ch != ' ')⟩

/-- cobra `Command.Name`: the first word of `Use`. -/
def Command.Name (c : Command) : String :=
  firstWord c.Use

/-- cobra `Command.CommandPath` on the heap:
`if c.HasParent() { return c.Parent().CommandPath() + " " + c.Name() }; return c.Name()`.
The walk to the root is bounded by `fuel`; `none` is a walk that does not end. -/
def CommandPathAux : Nat → Heap → Ptr → Option String
  | 0, _, _ => none
  | fuel + 1, h, p =>
    match h[p]? with
    | none => none
    | some c =>
      match c.parent with
      | none => some c.Name
      | some q =>
        match CommandPathAux fuel h q with
        | none => none
        | some s => some (s ++ " " ++ c.Name)

/-- A parent chain without a cycle has at most as many objects as the heap. -/
def CommandPath (h : Heap) (p : Ptr) : Option String :=
  CommandPathAux h.length h p

/-- One round of the loop of cobra `Command.AddCommand`:
```
if cmds[i] == c { panic("Command can't be a child of itself") }
cmds[i].parent = c
commandPathLen := len(x.CommandPath())
if commandPathLen > c.commandsMaxCommandPathLen { c.commandsMaxCommandPathLen = commandPathLen }
nameLen := len(x.Name())
if nameLen > c.commandsMaxNameLen { c.commandsMaxNameLen = nameLen }
c.commands = append(c.commands, x)
```
`none` is the panic. -/
def addOne (c : Ptr) (h : Heap) (x : Ptr) : Option Heap :=
  if x = c then none
  else
    let h1 := h.update x (fun k => { k with parent := some c })
    match CommandPath h1 x, h1[x]? with
    | some path, some xc =>
      some (h1.update c (fun k =>
        { k with
          commandsMaxCommandPathLen := max k.commandsMaxCommandPathLen path.utf8ByteSize
          commandsMaxNameLen := max k.commandsMaxNameLen xc.Name.utf8ByteSize
          commands := k.commands ++ [x] }))
    | _, _ => none

/-- cobra `Command.AddCommand(cmds ...*Command)`. -/
def AddCommand (h : Heap) (c : Ptr) (cmds : List Ptr) : Option Heap :=
  cmds.foldlM (addOne c) h

/-- cobra `Command.SetOut`: `c.outWriter = newOut`. -/
def SetOut (h : Heap) (c : Ptr) (newOut : Writer) : Heap :=
  h.update c (fun k => { k with outWriter := some newOut })

/-! ## Part 1: the code of `cmd.go` -/

/-- The `Long` text of the completion command (cmd.go 37-47). -/
def completionLong : String :=
  "Generate shell completion scripts for tictactoe.\n\nThe command for each shell will print a completion script to stdout. You can source this script to get\ncompletions in your current shell session. You can add this script to the completion directory for your\nshell to get completions for all future sessions.\n\nFor example, to activate bash completions in your current shell:\n\t\t$ . <(tictactoe completion bash)\n\nTo add tictactoe completions for all bash sessions:\n\t\t$ tictactoe completion bash > /etc/bash_completion.d/tictactoe_completions"

/-- `CreateCompletionCommand(rootCmd)` (cmd.go 33-85). -/
def CreateCompletionCommand (rootCmd : Ptr) (h : Heap) : Option (Ptr × Heap) :=
  let (completionCmd, h) := alloc h
    { Use := "completion"
      Short := "Generate shell completion scripts for tictactoe"
      Long := completionLong }
  let (bashCompletionCmd, h) := alloc h
    { Use := "bash"
      Short := "bash completions for tictactoe"
      Run := some (RunFn.genBash rootCmd) }
  let (zshCompletionCmd, h) := alloc h
    { Use := "zsh"
      Short := "zsh completions for tictactoe"
      Run := some (RunFn.genZsh rootCmd) }
  let (fishCompletionCmd, h) := alloc h
    { Use := "fish"
      Short := "fish completions for tictactoe"
      Run := some (RunFn.genFish rootCmd) }
  let (powershellCompletionCmd, h) := alloc h
    { Use := "powershell"
      Short := "powershell completions for tictactoe"
      Run := some (RunFn.genPowerShell rootCmd) }
  match AddCommand h completionCmd
      [bashCompletionCmd, zshCompletionCmd, fishCompletionCmd, powershellCompletionCmd] with
  | none => none
  | some h => some (completionCmd, h)

/-- `CreateVersionCommand()` (cmd.go 87-97). The build-time constant
`version.TicTacToeVersion` is not under src/ and is the parameter `v`. -/
def CreateVersionCommand (v : String) (h : Heap) : Ptr × Heap :=
  alloc h
    { Use := "version"
      Short := "Print the version of tictactoe that you are currently using"
      Run := some (RunFn.printVersion v) }

/-- Modelled from the spec: the collaborator constructors
`TicTacToe.CreateTicTacToeCommand` and `TicTacToeMetadata.CreateTicTacToeMetadataCommand`
are not under src/. Each "exposes one pre-built command subtree (its own name, help text,
flags, and actions)": the call allocates the top command of the subtree `t`, which has no
parent yet and brings its descendants with it. Of a collaborator's command the tree holds
what the spec's Command entity has (name, help texts, action, children). The flags it
defines, an argument validator and the error its action may return are not represented:
`ExecuteCFlags` gives no answer when a flag-like word reaches such a command, and no
statement below says that a collaborator's action succeeds. -/
def Tree.create (t : Tree) (h : Heap) : Ptr × Heap :=
  alloc h
    { Use := t.Use
      Short := t.Short
      Long := t.Long
      Run := t.Run
      outWriter := t.outWriter
      commandsMaxCommandPathLen := t.commandsMaxCommandPathLen
      commandsMaxNameLen := t.commandsMaxNameLen
      subtree := t.commands }

/-- `CreateRootCommand()` (cmd.go 12-31), run on the empty heap of a starting process.
`v` is the build-time version constant, `G` and `M` are the subtrees of the Game Engine
and the Metadata Provider. -/
def CreateRootCommand (v : String) (G M : Tree) : Option (Ptr × Heap) :=
  let (rootCmd, h) := alloc []
    { Use := "tictactoe"
      Short := "tictactoe: CLI to the TicTacToe Game"
      Run := some RunFn.rootHelp }
  match CreateCompletionCommand rootCmd h with
  | none => none
  | some (completionCmd, h) =>
  match AddCommand h rootCmd [completionCmd] with
  | none => none
  | some h =>
  let (versionCmd, h) := CreateVersionCommand v h
  match AddCommand h rootCmd [versionCmd] with
  | none => none
  | some h =>
  let (gameCmd, h) := G.create h
  match AddCommand h rootCmd [gameCmd] with
  | none => none
  | some h =>
  let (metadataCmd, h) := M.create h
  match AddCommand h rootCmd [metadataCmd] with
  | none => none
  | some h =>
  let h := SetOut h rootCmd Writer.stdout
  some (rootCmd, h)

/-! ## Part 2: the finished heap as a tree -/

/-- All the values of a list of options, when none is missing. -/
def allSome {α : Type} : List (Option α) → Option (List α)
  | [] => some []
  | none :: _ => none
  | some a :: rest =>
    match allSome rest with
    | none => none
    | some as => some (a :: as)

/-- The command at `p` with everything below it, as a value. `parent` is the object
through which `p` was reached: the reading fails when the `parent` field of a command
is not the command that lists it as a child, so that in a tree that was read back the
ancestors of a command are exactly its chain of `parent` pointers. -/
def toTreeAux : Nat → Heap → Option Ptr → Ptr → Option Tree
  | 0, _, _, _ => none
  | fuel + 1, h, parent, p =>
    match h[p]? with
    | none => none
    | some c =>
      if c.parent = parent then
        match allSome (c.commands.map (toTreeAux fuel h (some p))) with
        | none => none
        | some kids =>
          some (Tree.node c.Use c.Short c.Long c.Run c.outWriter
            c.commandsMaxCommandPathLen c.commandsMaxNameLen (kids ++ c.subtree))
      else none

/-- The tree under the parentless command `p`. A descent without a cycle is at most as
deep as the heap is long. -/
def toTree (h : Heap) (p : Ptr) : Option Tree :=
  toTreeAux h.length h none p

/-! ## Part 2: cobra's command methods, on a command together with its ancestors

A command is handled together with `ancestors`, the commands above it, the nearest
first: `c.parent` is the head of `ancestors`, and `c.HasParent()` is `ancestors ≠ []`. -/

namespace Tree

/-- cobra `Command.Name`. -/
def Name (c : Tree) : String :=
  firstWord c.Use

/-- cobra `Command.Runnable`: `c.Run != nil || c.RunE != nil`. -/
def Runnable (c : Tree) : Bool :=
  c.Run.isSome

/-- cobra `Command.HasSubCommands`: `len(c.commands) > 0`. -/
def HasSubCommands (c : Tree) : Bool :=
  !c.commands.isEmpty

/-- cobra `Command.getOut`:
```
if c.outWriter != nil { return c.outWriter }
if c.HasParent() { return c.parent.getOut(def) }
return def
``` -/
def getOut (c : Tree) (ancestors : List Tree) (d : Writer) : Writer :=
  match c.outWriter with
  | some w => w
  | none =>
    match ancestors with
    | [] => d
    | p :: above => getOut p above d

/-- cobra `Command.OutOrStdout`: `c.getOut(os.Stdout)`. -/
def OutOrStdout (c : Tree) (ancestors : List Tree) : Writer :=
  c.getOut ancestors Writer.stdout

/-- cobra `Command.OutOrStderr`: `c.getOut(os.Stderr)`. -/
def OutOrStderr (c : Tree) (ancestors : List Tree) : Writer :=
  c.getOut ancestors Writer.stderr

/-- cobra `Command.CommandPath`. -/
def CommandPath (c : Tree) (ancestors : List Tree) : String :=
  match ancestors with
  | [] => c.Name
  | p :: above => CommandPath p above ++ " " ++ c.Name

mutual
/-- cobra `Command.IsAvailableCommand` for a command that is not the help command of
its parent: `c.Runnable() || c.HasAvailableSubCommands()` (no command of the model is
hidden or deprecated). -/
def IsAvailableCommand : Tree → Bool
  | node _ _ _ run _ _ _ cs => run.isSome || anyAvailable cs
/-- cobra `Command.HasAvailableSubCommands` below the root, where no command has a help
command: some child is available. -/
def anyAvailable : List Tree → Bool
  | [] => false
  | c :: cs => IsAvailableCommand c || anyAvailable cs
end

mutual
/-- cobra `Command.IsAdditionalHelpTopicCommand`: not runnable, and every child is an
additional help topic too. -/
def IsAdditionalHelpTopicCommand : Tree → Bool
  | node _ _ _ run _ _ _ cs => !run.isSome && allHelpTopics cs
/-- The loop of `IsAdditionalHelpTopicCommand` over the children. -/
def allHelpTopics : List Tree → Bool
  | [] => true
  | c :: cs => IsAdditionalHelpTopicCommand c && allHelpTopics cs
end

end Tree

/-! ## Part 2: the default help and usage templates -/

/-- Go `unicode.IsSpace`. -/
def isSpace (ch : Char) : Bool :=
  let n := ch.toNat
  (9 ≤ n && n ≤ 13) || n = 32 || n = 133 || n = 160 || n = 5760 ||
    (8192 ≤ n && n ≤ 8202) || n = 8232 || n = 8233 || n = 8239 || n = 8287 || n = 12288

/-- cobra `trimRightSpace`, the template function `trimTrailingWhitespaces`:
`strings.TrimRightFunc(s, unicode.IsSpace)`. -/
def trimTrailingWhitespaces (s : String) : String :=
  ⟨(s.data.reverse.dropWhile isSpace).reverse⟩

/-- cobra `rpad`: `fmt.Sprintf("%-<padding>s", s)`, which fills `s` up with blanks on the
right to `padding` characters. -/
def rpad (s : String) (padding : Nat) : String :=
  s ++ ⟨List.replicate (padding - s.length) ' '⟩

/-- Whether the characters `p` start the list `l`. -/
def startsWith : List Char → List Char → Bool
  | [], _ => true
  | _ :: _, [] => false
  | a :: p, b :: l => a == b && startsWith p l

/-- Go `strings.Contains` on character lists. -/
def containsChars (p : List Char) : List Char → Bool
  | [] => p.isEmpty
  | b :: l => startsWith p (b :: l) || containsChars p l

/-- cobra `Command.UseLine`: the `Use` text after the path of the parent, and, when the
command has a flag (`helpFlag`: its help flag is defined), ` [flags]` unless that is in
the text already. -/
def Tree.UseLine (c : Tree) (ancestors : List Tree) (helpFlag : Bool) : String :=
  let useline :=
    match ancestors with
    | [] => c.Use
    | p :: above => Tree.CommandPath p above ++ " " ++ c.Use
  if helpFlag && !containsChars "[flags]".data useline.data then useline ++ " [flags]"
  else useline

/-- Go insertion sort step of `sort.Sort(commandSorterByName(c.commands))`: `x` moves
left as long as its name is less than the name before it. -/
def insertByName (x : Nat × Tree) : List (Nat × Tree) → List (Nat × Tree)
  | [] => [x]
  | y :: ys =>
    if x.2.Name < y.2.Name then x :: y :: ys else y :: insertByName x ys

/-- cobra `Command.Commands`: the children sorted by name (insertion sort, as Go's
`sort.Sort` does on the short lists of this program), each with its index in
`c.commands`. -/
def Tree.Commands (c : Tree) : List (Nat × Tree) :=
  (c.commands.enum).foldl (fun acc x => insertByName x acc) []

/-- A command as the templates see it: the command, its ancestors, and the index of
its help command among its children (`c.helpCommand`, set on the root only). -/
structure Located where
  cmd : Tree
  ancestors : List Tree
  pos : List Nat
  helpCommand : Option Nat

/-- cobra `IsAvailableCommand` of the child with index `i` of `l`: not the help command
of its parent, and runnable or with an available subcommand. -/
def Located.childAvailable (l : Located) (x : Nat × Tree) : Bool :=
  !(l.helpCommand == some x.1) && x.2.IsAvailableCommand

/-- cobra `Command.HasAvailableSubCommands`. -/
def Located.HasAvailableSubCommands (l : Located) : Bool :=
  l.cmd.commands.enum.any l.childAvailable

/-- cobra `Command.HasHelpSubCommands`: some child is an additional help topic. -/
def Located.HasHelpSubCommands (l : Located) : Bool :=
  l.cmd.commands.any Tree.IsAdditionalHelpTopicCommand

/-- cobra `Command.NamePadding` of the children of `c`:
`if minNamePadding > c.parent.commandsMaxNameLen { return minNamePadding }`, with
`minNamePadding = 11`. -/
def NamePadding (parent : Tree) : Nat :=
  if 11 > parent.commandsMaxNameLen then 11 else parent.commandsMaxNameLen

/-- cobra `Command.CommandPathPadding` of the children of `c`, with
`minCommandPathPadding = 11`. -/
def CommandPathPadding (parent : Tree) : Nat :=
  if 11 > parent.commandsMaxCommandPathLen then 11 else parent.commandsMaxCommandPathLen

/-- One row under `Available Commands:`: for a child that is available or is named
`help`, a new line, two blanks, `rpad .Name .NamePadding`, a blank and `.Short`. -/
def Located.availableRow (l : Located) (x : Nat × Tree) : String :=
  if l.childAvailable x || x.2.Name == "help" then
    "\n  " ++ rpad x.2.Name (NamePadding l.cmd) ++ " " ++ x.2.Short
  else ""

/-- One row under `Additional help topics:`: for a child that is an additional help
topic, a new line, two blanks, `rpad .CommandPath .CommandPathPadding`, a blank and
`.Short`. -/
def Located.topicRow (l : Located) (x : Nat × Tree) : String :=
  if x.2.IsAdditionalHelpTopicCommand then
    "\n  " ++ rpad (x.2.CommandPath (l.cmd :: l.ancestors)) (CommandPathPadding l.cmd) ++ " "
      ++ x.2.Short
  else ""

/-- The rows of a section, `{{range .Commands}}...{{end}}`. -/
def joinRows (row : Nat × Tree → String) (cs : List (Nat × Tree)) : String :=
  String.join (cs.map row)

/-- The usage text of the help flag that `InitDefaultHelpFlag` defines, as
`LocalFlags.FlagUsages` prints it, trailing white space trimmed. -/
def helpFlagUsage (c : Tree) : String :=
  "  -h, --help   help for " ++ (if c.Name == "" then "this command" else c.Name)

/-- cobra `Command.UsageString` with the default usage template, for a command without
aliases, examples or inherited flags. `helpFlag` tells whether `InitDefaultHelpFlag` has
run on the command, which is then its one local flag. -/
def Located.UsageString (l : Located) (helpFlag : Bool) : String :=
  "Usage:"
    ++ (if l.cmd.Runnable then "\n  " ++ l.cmd.UseLine l.ancestors helpFlag else "")
    ++ (if l.HasAvailableSubCommands then
          "\n  " ++ l.cmd.CommandPath l.ancestors ++ " [command]" else "")
    ++ (if l.HasAvailableSubCommands then
          "\n\nAvailable Commands:" ++ joinRows l.availableRow l.cmd.Commands else "")
    ++ (if helpFlag then "\n\nFlags:\n" ++ helpFlagUsage l.cmd else "")
    ++ (if l.HasHelpSubCommands then
          "\n\nAdditional help topics:" ++ joinRows l.topicRow l.cmd.Commands else "")
    ++ (if l.HasAvailableSubCommands then
          "\n\nUse \"" ++ l.cmd.CommandPath l.ancestors
            ++ " [command] --help\" for more information about a command." else "")
    ++ "\n"

/-- The text cobra's default help function renders with the default help template:
`.Long`, or `.Short` when there is no `.Long`, without trailing white space and followed
by an empty line (nothing when both are empty); then `.UsageString` when the command is
runnable or has subcommands. Every path to it defines the help flag of the command
first. -/
def Located.helpText (l : Located) : String :=
  let about := if l.cmd.Long != "" then l.cmd.Long else l.cmd.Short
  (if about != "" then trimTrailingWhitespaces about ++ "\n\n" else "")
    ++ (if l.cmd.Runnable || l.cmd.HasSubCommands then l.UsageString true else "")

/-! ## Part 2: dispatch -/

/-- What an invocation does, in order.
* `run pos args`: the `Run` closure of the command at `pos` is called with `args`
* `write w text`: `text` is written to `w`
* `generate sh rootCmd w includeDesc`: the completion generator for `sh` is called on
  the command `rootCmd` with target `w` (and, for fish, the description switch)
* `external tag`: the body of a collaborator's closure runs
* `unknownCommand w name path`: the report of cobra's error "unknown command" (the line
  `Error: ...` and the line `Run '... --help' for usage.`) is written to `w`
* `unknownHelpTopic w args`: the line `Unknown help topic ...` is written to `w` -/
inductive Event where
  | run (pos : List Nat) (args : List String)
  | write (w : Writer) (text : String)
  | generate (sh : Shell) (rootCmd : Ptr) (w : Writer) (includeDesc : Option Bool)
  | external (tag : Nat)
  | unknownCommand (w : Writer) (name path : String)
  | unknownHelpTopic (w : Writer) (args : List String)
  deriving DecidableEq, Repr

/-- The error of `legacyArgs`: `unknown command %q for %q`, with the word and the
command path. -/
inductive CobraError where
  | unknownCommand (name path : String)
  deriving DecidableEq, Repr

/-- The result of `ExecuteC`: the error it returns, and what happened. -/
structure Outcome where
  err : Option CobraError
  trace : List Event
  deriving DecidableEq, Repr

/-- A word that is neither empty nor flag-like (it does not start with `-`). On such
words `stripFlags` keeps everything and `argsMinusFirstX` drops the first word. -/
def plainWord (s : String) : Bool :=
  match s.data with
  | [] => false
  | ch :: _ => ch != '-'

/-- The argument vectors this embedding covers: plain words only, the first of which is
not a request to the hidden command `__complete` (alias `__completeNoDesc`) that
`initCompleteCmd` adds for such a request. -/
def supported (args : List String) : Bool :=
  args.all plainWord &&
    !(args.head? == some "__complete" || args.head? == some "__completeNoDesc")

/-- The loop of cobra `Command.findNext` (prefix matching is off, and no command of the
model has an alias): the first child whose name is `next`, with its index. -/
def findNextFrom (next : String) : List Tree → Nat → Option (Nat × Tree)
  | [], _ => none
  | x :: xs, i => if x.Name == next then some (i, x) else findNextFrom next xs (i + 1)

/-- cobra `Command.findNext`. -/
def Tree.findNext (c : Tree) (next : String) : Option (Nat × Tree) :=
  findNextFrom next c.commands 0

/-- The closure `innerfind` of cobra `Command.Find`, on plain words:
```
argsWOflags := stripFlags(innerArgs, c)
if len(argsWOflags) == 0 { return c, innerArgs }
nextSubCmd := argsWOflags[0]
cmd := c.findNext(nextSubCmd)
if cmd != nil { return innerfind(cmd, c.argsMinusFirstX(innerArgs, nextSubCmd)) }
return c, innerArgs
``` -/
def innerfind (l : Located) : List String → Located × List String
  | [] => (l, [])
  | nextSubCmd :: rest =>
    match l.cmd.findNext nextSubCmd with
    | some (i, x) => innerfind ⟨x, l.cmd :: l.ancestors, l.pos ++ [i], none⟩ rest
    | none => (l, nextSubCmd :: rest)

/-- cobra `legacyArgs`, the validation of a command without an `Args` field (no command
of `cmd.go` sets one):
```
if !cmd.HasSubCommands() { return nil }
if !cmd.HasParent() && len(args) > 0 { return fmt.Errorf("unknown command %q for %q%s", ...) }
return nil
``` -/
def legacyArgs (l : Located) (args : List String) : Option CobraError :=
  if !l.cmd.HasSubCommands then none
  else
    match l.ancestors, args with
    | [], a :: _ => some (CobraError.unknownCommand a (l.cmd.CommandPath l.ancestors))
    | _, _ => none

/-- cobra `Command.Find`: the command found, the words left, and the error of the
argument validation. -/
def Find (root : Located) (args : List String) : Located × List String × Option CobraError :=
  let (commandFound, a) := innerfind root args
  (commandFound, a, legacyArgs commandFound a)

/-- The help command of cobra `InitDefaultHelpCmd`. -/
def helpCommandOf (c : Tree) : Tree :=
  Tree.node "help [command]" "Help about any command"
    ("Help provides help for any command in the application.\nSimply type " ++ c.Name
      ++ " help [path to command] for full details.")
    (some RunFn.helpTopic) none 0 0 []

/-- cobra `Command.InitDefaultHelpCmd` on the root: a command with subcommands gets the
help command as its last child (`RemoveCommand`, which recomputes the two lengths from
the children, then `AddCommand`). -/
def InitDefaultHelpCmd (c : Tree) : Located :=
  if !c.HasSubCommands then ⟨c, [], [], none⟩
  else
    let cs := c.commands ++ [helpCommandOf c]
    let pathLen := (cs.map fun x => (c.Name ++ " " ++ x.Name).utf8ByteSize).foldl max 0
    let nameLen := (cs.map fun x => x.Name.utf8ByteSize).foldl max 0
    ⟨Tree.node c.Use c.Short c.Long c.Run c.outWriter pathLen nameLen cs, [], [],
      some c.commands.length⟩

/-- The body of a `Run` closure, called as `Run(cmd, args)` with `cmd` the command `l`;
`root` is `cmd.Root()`.
* `cmd.Help()` renders the help text of `cmd` to `cmd.OutOrStdout()`.
* `rootCmd.GenBashCompletion(cmd.OutOrStdout())` and its siblings call the generator.
* `cmd.Println(v)` is `fmt.Fprint(c.OutOrStderr(), fmt.Sprintln(v))`.
* The help command looks its arguments up from the root: an unknown topic is reported
  and followed by the usage of the root, both on `OutOrStderr`; a command found has its
  help flag defined and its help rendered. -/
def RunFn.call (f : RunFn) (root l : Located) (args : List String) : List Event :=
  match f with
  | RunFn.rootHelp => [Event.write (l.cmd.OutOrStdout l.ancestors) l.helpText]
  | RunFn.genBash rootCmd =>
    [Event.generate Shell.bash rootCmd (l.cmd.OutOrStdout l.ancestors) none]
  | RunFn.genZsh rootCmd =>
    [Event.generate Shell.zsh rootCmd (l.cmd.OutOrStdout l.ancestors) none]
  | RunFn.genFish rootCmd =>
    [Event.generate Shell.fish rootCmd (l.cmd.OutOrStdout l.ancestors) (some true)]
  | RunFn.genPowerShell rootCmd =>
    [Event.generate Shell.powershell rootCmd (l.cmd.OutOrStdout l.ancestors) none]
  | RunFn.printVersion v => [Event.write (l.cmd.OutOrStderr l.ancestors) (v ++ "\n")]
  | RunFn.helpTopic =>
    match Find root args with
    | (_, _, some _) =>
      [Event.unknownHelpTopic (l.cmd.OutOrStderr l.ancestors) args,
        Event.write (root.cmd.OutOrStderr root.ancestors) (root.UsageString false)]
    | (cmd, _, none) => [Event.write (cmd.cmd.OutOrStdout cmd.ancestors) cmd.helpText]
  | RunFn.external tag => [Event.external tag]

/-- cobra `Command.ExecuteC` on the root of a tree, for the argument vectors of
`supported` (`none` otherwise).
* `InitDefaultHelpCmd`, then `Find`. An error of `Find` is reported with `PrintErrln` and
  `PrintErrf`, that is on `ErrOrStderr`, which is `os.Stderr` as no command of the model
  has an error writer; `ExecuteC` returns the error.
* `execute` on the command found: a command that is not runnable gives `flag.ErrHelp`,
  on which `ExecuteC` calls the help function of the command and returns no error;
  otherwise `c.Run(c, argWoFlags)` is called. -/
def ExecuteC (c : Tree) (args : List String) : Option Outcome :=
  if !supported args then none
  else
    let root := InitDefaultHelpCmd c
    match Find root args with
    | (_, _, some (CobraError.unknownCommand name path)) =>
      some ⟨some (CobraError.unknownCommand name path),
        [Event.unknownCommand Writer.stderr name path]⟩
    | (cmd, flags, none) =>
      match cmd.cmd.Run with
      | none => some ⟨none, [Event.write (cmd.cmd.OutOrStdout cmd.ancestors) cmd.helpText]⟩
      | some f => some ⟨none, Event.run cmd.pos flags :: f.call root cmd flags⟩

/-- Dispatching the argument vector `args` on the tree that `CreateRootCommand` returns:
`CreateRootCommand().Execute()` with `args` as the arguments of the process. -/
def dispatch (v : String) (G M : Tree) (args : List String) : Option Outcome :=
  match CreateRootCommand v G M with
  | none => none
  | some (rootCmd, h) =>
    match toTree h rootCmd with
    | none => none
    | some t => ExecuteC t args

/-- The tree under the command that `CreateRootCommand` returns. -/
def returnedTree (v : String) (G M : Tree) : Option Tree :=
  match CreateRootCommand v G M with
  | none => none
  | some (rootCmd, h) => toTree h rootCmd

/-! ## Vocabulary of the statements -/

/-- The stream an event writes to, if it writes. -/
def Event.writer : Event → Option Writer
  | Event.run _ _ => none
  | Event.write w _ => some w
  | Event.generate _ _ w _ => some w
  | Event.external _ => none
  | Event.unknownCommand w _ _ => some w
  | Event.unknownHelpTopic w _ => some w

/-- The position of the command whose `Run` closure an event calls. -/
def Event.action : Event → Option (List Nat)
  | Event.run pos _ => some pos
  | _ => none

/-- The actions an invocation ran: the positions of the commands whose `Run` closure was
called, in order. -/
def Outcome.actions (o : Outcome) : List (List Nat) :=
  o.trace.filterMap Event.action

/-- Go `strings.Contains(text, s)`. -/
def Mentions (text s : String) : Bool :=
  containsChars s.data text.data

/-- The child with index `i`, with its ancestors. -/
def Located.child (l : Located) (i : Nat) : Option Located :=
  match l.cmd.commands[i]? with
  | none => none
  | some x => some ⟨x, l.cmd :: l.ancestors, l.pos ++ [i], none⟩

/-- The command at the position `pos` below `l`, with its ancestors. -/
def Located.descend (l : Located) : List Nat → Option Located
  | [] => some l
  | i :: pos =>
    match l.child i with
    | none => none
    | some x => x.descend pos

/-- The positions of the commands that `cmd.go` builds itself: the root, `completion`,
its leaves `bash`, `zsh`, `fish`, `powershell`, and `version`. -/
def routerBuilt : List (List Nat) :=
  [[], [0], [0, 0], [0, 1], [0, 2], [0, 3], [1]]

/-- A valid command path: the names `P` lead from `c` down to a command, `pos` being the
indices of the children taken on the way; the result is the command they lead to. Each
name designates the child that bears it, which by the data model is the only one ("names
are unique within a sibling group"); where a name occurs twice, it designates the first
bearer, the one that first-match lookup can reach. -/
def validPath (c : Tree) : List String → List Nat → Option Tree
  | [], [] => some c
  | name :: P, i :: pos =>
    match c.commands[i]? with
    | none => none
    | some x =>
      if x.Name = name ∧ ∀ y ∈ c.commands.take i, y.Name ≠ name then validPath x P pos
      else none
  | _, _ => none

/-- The relation that `validPath` computes, for the proofs: `Leads c P pos target` says
that the names `P` lead from `c` to `target`, which sits at the position `pos` below `c`. -/
inductive Leads : Tree → List String → List Nat → Tree → Prop where
  | here (c : Tree) : Leads c [] [] c
  | step (c x target : Tree) (name : String) (i : Nat) (P : List String) (pos : List Nat) :
      c.commands[i]? = some x → x.Name = name →
      (∀ j y, j < i → c.commands[j]? = some y → y.Name ≠ name) →
      Leads x P pos target → Leads c (name :: P) (i :: pos) target

/-- The leaf `bash` of the completion group as a value, `rootCmd` being the pointer its
closure holds. -/
def bashTree (rootCmd : Ptr) : Tree :=
  Tree.node "bash" "bash completions for tictactoe" "" (some (RunFn.genBash rootCmd))
    none 0 0 []

/-- The leaf `zsh` as a value. -/
def zshTree (rootCmd : Ptr) : Tree :=
  Tree.node "zsh" "zsh completions for tictactoe" "" (some (RunFn.genZsh rootCmd))
    none 0 0 []

/-- The leaf `fish` as a value. -/
def fishTree (rootCmd : Ptr) : Tree :=
  Tree.node "fish" "fish completions for tictactoe" "" (some (RunFn.genFish rootCmd))
    none 0 0 []

/-- The leaf `powershell` as a value. -/
def powershellTree (rootCmd : Ptr) : Tree :=
  Tree.node "powershell" "powershell completions for tictactoe" ""
    (some (RunFn.genPowerShell rootCmd)) none 0 0 []

/-- The four leaves of the completion group, in the order they are added. -/
def completionLeaves (rootCmd : Ptr) : List Tree :=
  [bashTree rootCmd, zshTree rootCmd, fishTree rootCmd, powershellTree rootCmd]

/-- The completion group as a value. -/
def completionTree (rootCmd : Ptr) : Tree :=
  Tree.node "completion" "Generate shell completion scripts for tictactoe" completionLong
    none none 21 10 (completionLeaves rootCmd)

/-- The version command as a value. -/
def versionTree (v : String) : Tree :=
  Tree.node "version" "Print the version of tictactoe that you are currently using" ""
    (some (RunFn.printVersion v)) none 0 0 []

/-- The tree that `CreateRootCommand` is proved to build (`CreateRootCommand_toTree`). -/
def assembled (v : String) (G M : Tree) : Tree :=
  Tree.node "tictactoe" "tictactoe: CLI to the TicTacToe Game" "" (some RunFn.rootHelp)
    (some Writer.stdout)
    (max (max 20 ("tictactoe " ++ G.Name).utf8ByteSize) ("tictactoe " ++ M.Name).utf8ByteSize)
    (max (max 10 G.Name.utf8ByteSize) M.Name.utf8ByteSize)
    [completionTree 0, versionTree v, G, M]

/-- A Game Engine subtree for the examples: a group `game` with one runnable child. -/
def exampleGame : Tree :=
  Tree.node "game" "Play tic-tac-toe" "" none none 9 4
    [Tree.node "move" "Make a move" "" (some (RunFn.external 1)) none 0 0 []]

/-- A Metadata Provider subtree for the examples: one runnable command. -/
def exampleMetadata : Tree :=
  Tree.node "metadata" "Show game metadata" "" (some (RunFn.external 2)) none 0 0 []

/-! ## Part 3: dispatch on words that are not plain

`ExecuteCFlags` is `ExecuteC` over a larger set of argument vectors: it answers what
`ExecuteC` answers wherever that one answers (`ExecuteCFlags_supported`), and also
* when a word is empty or starts with `-` where command lookup only skips it,
* when the first flag-like word handed to a command built by `cmd.go` is a flag that
  command does not have,
* when the first word is `__complete` or `__completeNoDesc` and a command bears that name. -/

/-- pflag `FlagSet.parseArgs` reads a word as a flag when it starts with `-` and is longer
than one character; any other word is an argument:
```
if len(s) == 0 || s[0] != '-' || len(s) == 1 { ... f.args = append(f.args, s); continue }
``` -/
def flagLike (s : String) : Bool :=
  match s.data with
  | '-' :: _ :: _ => true
  | _ => false

/-- A flag-like word that pflag rejects on a command whose one flag is the help flag of
`InitDefaultHelpFlag` (`--help`, shorthand `-h`).
* `parseLongArg` on `--name` or `--name=value`: a well-formed name (not empty, not starting
  with `-` or `=`) other than `help` has no flag: `unknown flag: --name`.
* `parseSingleShortArg` on `-c...`: a first shorthand `c` other than `h` has no flag:
  `unknown shorthand flag: 'c' in -c...`; a shorthand group starting with `test.` is let
  through (`if strings.HasPrefix(shorthands, "test.") { return }`).

`--` alone ends the flags, and `--help`, `-h...`, `--=x`, `---x` take other branches: they
are not unknown flags in this sense. -/
def unknownFlag (s : String) : Bool :=
  match s.data with
  | '-' :: '-' :: name =>
    (match name with
      | [] => false
      | ch :: _ => ch != '-' && ch != '=')
      && name.takeWhile (fun ch => ch != '=') != "help".data
  | '-' :: ch :: rest => ch != 'h' && !startsWith "test.".data (ch :: rest)
  | _ => false

/-- What pflag's `Parse` meets first in the words of a command whose one flag is the help
flag: no flag-like word at all (every word is an argument, `Flags().Args()` is the whole
vector), an unknown flag (`Parse` stops there with an error, whatever follows), or
a flag-like word of another kind. -/
inductive FlagScan where
  | positional
  | unknown (word : String)
  | other
  deriving DecidableEq, Repr

/-- The loop of `FlagSet.parseArgs` up to the first flag-like word. -/
def scanFlags : List String → FlagScan
  | [] => FlagScan.positional
  | s :: rest =>
    if flagLike s then (if unknownFlag s then FlagScan.unknown s else FlagScan.other)
    else scanFlags rest

/-- What `ExecuteC` does when `execute` returns the error of `ParseFlags`: no `Run` is
called; `c.PrintErrln(cmd.ErrPrefix(), err.Error())` reports the error on `reportTo`
(`ErrOrStderr` of the root), `c.Println(cmd.UsageString())` writes `usage` to `usageTo`
(`OutOrStderr` of the root), and `ExecuteC` returns the error. `pos` is the command whose
flags were parsed, `word` the word pflag rejects. -/
structure FlagFailure where
  pos : List Nat
  word : String
  reportTo : Writer
  usageTo : Writer
  usage : String
  deriving DecidableEq, Repr

/-- The result of `ExecuteCFlags`: an outcome as `ExecuteC` gives it, or the failure of
flag parsing, with which `ExecuteC` returns an error. -/
inductive Result where
  | done (out : Outcome)
  | flagError (f : FlagFailure)
  deriving DecidableEq, Repr

/-- The words for which `initCompleteCmd` keeps its hidden command `__complete` (alias
`__completeNoDesc`), added after all other children: `Find` resolves the arguments to
it, which takes a first command word of that name that no child of the root bears. Here:
the first plain word of the vector (an overestimate when a flag before it swallows it). -/
def hiddenRequest (root : Located) (args : List String) : Bool :=
  match args.find? plainWord with
  | none => false
  | some w => (w == "__complete" || w == "__completeNoDesc") && (root.cmd.findNext w).isNone

/-- The closure `innerfind` of `Find` (quoted at `innerfind`), on any words.
`stripFlags` keeps plain words only (`case s != "" && !strings.HasPrefix(s, "-")`), and
keeps them in order up to the first flag-like word; `argsMinusFirstX` removes the first
occurrence of the word among the words that do not start with `-`.
* The first word is plain: it is `argsWOflags[0]`, and `argsMinusFirstX` drops it.
* It is not, and the command has no children or no plain word follows: whatever
  `stripFlags` returns, `findNext` finds nothing, and the command and all words are
  returned.
* It is not, the command has children and a plain word follows: whether `stripFlags`
  keeps that word depends on the flags before it; no answer (`none`). -/
def innerfindFlags (l : Located) : List String → Option (Located × List String)
  | [] => some (l, [])
  | w :: rest =>
    if plainWord w then
      match l.cmd.findNext w with
      | some (i, x) => innerfindFlags ⟨x, l.cmd :: l.ancestors, l.pos ++ [i], none⟩ rest
      | none => some (l, w :: rest)
    else if l.cmd.commands.isEmpty || rest.all (fun s => !plainWord s) then some (l, w :: rest)
    else none

/-- cobra `Command.ExecuteC` on the root of a tree, as `ExecuteC`, on more vectors;
`own` holds the positions of the commands whose flags are known: they define none, so
that `InitDefaultHelpFlag` leaves them the help flag alone.
* `Find` validates with `legacyArgs(commandFound, stripFlags(a, commandFound))`.
  `legacyArgs` reads the stripped words on a parentless command with subcommands only,
  and of them whether there is one and which is the first; there the plain words of `a`
  agree with them in both on every answer of `innerfindFlags`.
* `execute` parses the flags before anything else: on an unknown flag `ParseFlags` fails
  and `ExecuteC` reports the failure. A flag-like word of another kind is not covered,
  nor is an unknown flag handed to a command outside `own`, whose flags are not known.
* Without flag-like words `c.Flags().Args()` is `a`, and `execute` goes on as in
  `ExecuteC`. The help command looks its arguments up with `Find`; it is covered on
  plain words. -/
def ExecuteCFlags (c : Tree) (own : List (List Nat)) (args : List String) : Option Result :=
  let root := InitDefaultHelpCmd c
  if hiddenRequest root args then none
  else
    match innerfindFlags root args with
    | none => none
    | some (cmd, a) =>
      match legacyArgs cmd (a.filter plainWord) with
      | some (CobraError.unknownCommand name path) =>
        some (Result.done ⟨some (CobraError.unknownCommand name path),
          [Event.unknownCommand Writer.stderr name path]⟩)
      | none =>
        match scanFlags a with
        | FlagScan.other => none
        | FlagScan.unknown word =>
          if own.contains cmd.pos then
            some (Result.flagError ⟨cmd.pos, word, Writer.stderr,
              root.cmd.OutOrStderr root.ancestors, cmd.UsageString true ++ "\n"⟩)
          else none
        | FlagScan.positional =>
          match cmd.cmd.Run with
          | none =>
            some (Result.done
              ⟨none, [Event.write (cmd.cmd.OutOrStdout cmd.ancestors) cmd.helpText]⟩)
          | some f =>
            if f = RunFn.helpTopic ∧ a.all plainWord = false then none
            else some (Result.done ⟨none, Event.run cmd.pos a :: f.call root cmd a⟩)

/-- Dispatching `args` on the tree that `CreateRootCommand` returns, as `dispatch`, with
`ExecuteCFlags`; the commands whose flags are known are those `cmd.go` builds. -/
def dispatchFlags (v : String) (G M : Tree) (args : List String) : Option Result :=
  match CreateRootCommand v G M with
  | none => none
  | some (rootCmd, h) =>
    match toTree h rootCmd with
    | none => none
    | some t => ExecuteCFlags t routerBuilt args

/-- A Game Engine subtree for the examples: one runnable command whose `Use` is empty. -/
def namelessGame : Tree :=
  Tree.node "" "A command without a name" "" (some (RunFn.external 7)) none 0 0 []

/-- A Game Engine subtree for the examples: one runnable command whose name starts with
`-`. -/
def dashGame : Tree :=
  Tree.node "--fast" "A command named like a flag" "" (some (RunFn.external 8)) none 0 0 []

/-! ## Lemmas -/

set_option maxHeartbeats 1000000

theorem firstWord_tictactoe : firstWord "tictactoe" = "tictactoe" := by decide

theorem firstWord_completion : firstWord "completion" = "completion" := by decide

theorem firstWord_bash : firstWord "bash" = "bash" := by decide

theorem firstWord_zsh : firstWord "zsh" = "zsh" := by decide

theorem firstWord_fish : firstWord "fish" = "fish" := by decide

theorem firstWord_powershell : firstWord "powershell" = "powershell" := by decide

theorem firstWord_version : firstWord "version" = "version" := by decide

theorem firstWord_help : firstWord "help [command]" = "help" := by decide

theorem Tree.eta (t : Tree) :
    Tree.node t.Use t.Short t.Long t.Run t.outWriter t.commandsMaxCommandPathLen
      t.commandsMaxNameLen t.commands = t := by
  cases t; rfl

theorem getElem?_append_length_add (h l : Heap) (k : Nat) :
    (h ++ l)[h.length + k]? = l[k]? := by
  rw [List.getElem?_append_right (Nat.le_add_right _ _)]
  simp

theorem getElem?_append_length (h l : Heap) : (h ++ l)[h.length]? = l[0]? := by
  have h1 := getElem?_append_length_add h l 0
  simpa using h1

theorem getElem_append_length_add (h l : Heap) (k : Nat)
    (hk : h.length + k < (h ++ l).length) (hl : k < l.length) :
    (h ++ l)[h.length + k] = l[k] := by
  have h1 := getElem?_append_length_add h l k
  rw [List.getElem?_eq_getElem hk, List.getElem?_eq_getElem hl] at h1
  exact Option.some.inj h1

theorem getElem_append_length (h l : Heap) (hk : h.length < (h ++ l).length)
    (hl : 0 < l.length) : (h ++ l)[h.length] = l[0] := by
  have h1 := getElem?_append_length h l
  rw [List.getElem?_eq_getElem hk, List.getElem?_eq_getElem hl] at h1
  exact Option.some.inj h1

theorem set_append_length_add (h l : Heap) (k : Nat) (a : Command) :
    (h ++ l).set (h.length + k) a = h ++ l.set k a := by
  rw [List.set_append]
  simp

theorem set_append_length (h l : Heap) (a : Command) :
    (h ++ l).set h.length a = h ++ l.set 0 a := by
  have h1 := set_append_length_add h l 0 a
  rw [Nat.add_zero] at h1
  exact h1

/-- The heap that `CreateRootCommand` leaves reads back, from the pointer it returns, as
the tree `assembled`. -/
theorem CreateRootCommand_toTree (v : String) (G M : Tree) :
    ∃ h, CreateRootCommand v G M = some (0, h) ∧ toTree h 0 = some (assembled v G M) := by
  have e1 : "tictactoe completion".utf8ByteSize = 20 := by decide
  have e2 : "tictactoe version".utf8ByteSize = 17 := by decide
  have e3 : "completion".utf8ByteSize = 10 := by decide
  have e4 : "version".utf8ByteSize = 7 := by decide
  have e5 : "completion bash".utf8ByteSize = 15 := by decide
  have e6 : "completion zsh".utf8ByteSize = 14 := by decide
  have e7 : "completion fish".utf8ByteSize = 15 := by decide
  have e8 : "completion powershell".utf8ByteSize = 21 := by decide
  have e9 : "bash".utf8ByteSize = 4 := by decide
  have e10 : "zsh".utf8ByteSize = 3 := by decide
  have e11 : "fish".utf8ByteSize = 4 := by decide
  have e12 : "powershell".utf8ByteSize = 10 := by decide
  simp [CreateRootCommand, CreateVersionCommand, Tree.create, SetOut, CreateCompletionCommand,
    alloc, AddCommand, addOne, Heap.update, CommandPath, CommandPathAux, List.foldlM,
    Command.Name, firstWord_tictactoe, firstWord_completion, firstWord_bash, firstWord_zsh,
    firstWord_fish, firstWord_powershell, firstWord_version, toTree, toTreeAux, allSome,
    Tree.eta, assembled, completionTree, completionLeaves, bashTree, zshTree, fishTree,
    powershellTree, versionTree, Tree.Name,
    e1, e2, e3, e4, e5, e6, e7, e8, e9, e10, e11, e12]

/-- On any heap, the command `CreateCompletionCommand` returns is a fresh one, and the
heap reads back from it as the tree `completionTree`. -/
theorem CreateCompletionCommand_toTree (rootCmd : Ptr) (h : Heap) :
    ∃ h1, CreateCompletionCommand rootCmd h = some (h.length, h1) ∧
      toTree h1 h.length = some (completionTree rootCmd) := by
  have e5 : "completion bash".utf8ByteSize = 15 := by decide
  have e6 : "completion zsh".utf8ByteSize = 14 := by decide
  have e7 : "completion fish".utf8ByteSize = 15 := by decide
  have e8 : "completion powershell".utf8ByteSize = 21 := by decide
  have e9 : "bash".utf8ByteSize = 4 := by decide
  have e10 : "zsh".utf8ByteSize = 3 := by decide
  have e11 : "fish".utf8ByteSize = 4 := by decide
  have e12 : "powershell".utf8ByteSize = 10 := by decide
  simp [CreateCompletionCommand, alloc, AddCommand, addOne, CommandPath, CommandPathAux,
    List.foldlM, Heap.update, toTree, toTreeAux, allSome, completionTree, completionLeaves,
    bashTree, zshTree, fishTree, powershellTree, Command.Name, firstWord_completion,
    firstWord_bash, firstWord_zsh, firstWord_fish, firstWord_powershell, getElem?_append_length_add, getElem?_append_length,
    getElem_append_length_add, getElem_append_length, set_append_length_add,
    set_append_length, e5, e6, e7, e8, e9, e10, e11, e12]

/-- The program runs cobra on the tree `assembled`. -/
theorem dispatch_eq (v : String) (G M : Tree) (args : List String) :
    dispatch v G M args = ExecuteC (assembled v G M) args := by
  obtain ⟨h, h1, h2⟩ := CreateRootCommand_toTree v G M
  unfold dispatch
  rw [h1]
  dsimp only
  rw [h2]

theorem startsWith_append (p l : List Char) : startsWith p (p ++ l) = true := by
  induction p with
  | nil => cases l <;> rfl
  | cons a p ih => simp [startsWith, ih]

theorem startsWith_split (p l : List Char) (h : startsWith p l = true) : ∃ b, l = p ++ b := by
  induction p generalizing l with
  | nil => exact ⟨l, rfl⟩
  | cons a p ih =>
    cases l with
    | nil => simp [startsWith] at h
    | cons x l =>
      simp only [startsWith, Bool.and_eq_true, beq_iff_eq] at h
      obtain ⟨b, e⟩ := ih l h.2
      exact ⟨b, by simp [h.1, e]⟩

theorem containsChars_nil (l : List Char) : containsChars [] l = true := by
  cases l <;> simp [containsChars, startsWith]

theorem containsChars_append (a p b : List Char) : containsChars p (a ++ (p ++ b)) = true := by
  induction a with
  | nil =>
    cases p with
    | nil => exact containsChars_nil _
    | cons x p => simp [containsChars, startsWith, startsWith_append]
  | cons x a ih => simp [containsChars, ih]

theorem containsChars_split (p l : List Char) (h : containsChars p l = true) :
    ∃ a b, l = a ++ (p ++ b) := by
  induction l with
  | nil =>
    simp [containsChars] at h
    exact ⟨[], [], by simp [h]⟩
  | cons x l ih =>
    simp only [containsChars, Bool.or_eq_true] at h
    rcases h with h | h
    · obtain ⟨b, e⟩ := startsWith_split p _ h
      exact ⟨[], b, by simp [e]⟩
    · obtain ⟨a, b, e⟩ := ih h
      exact ⟨x :: a, b, by simp [e]⟩

theorem Mentions_self (s : String) : Mentions s s = true := by
  have h := containsChars_append [] s.data []
  simpa [Mentions] using h

theorem Mentions_append_left (a b s : String) (h : Mentions a s = true) :
    Mentions (a ++ b) s = true := by
  obtain ⟨x, y, e⟩ := containsChars_split _ _ h
  have h1 := containsChars_append x s.data (y ++ b.data)
  simpa [Mentions, String.data_append, e, List.append_assoc] using h1

theorem Mentions_append_right (a b s : String) (h : Mentions b s = true) :
    Mentions (a ++ b) s = true := by
  obtain ⟨x, y, e⟩ := containsChars_split _ _ h
  have h1 := containsChars_append (a.data ++ x) s.data y
  simpa [Mentions, String.data_append, e, List.append_assoc] using h1

theorem Mentions_foldl_acc (l : List String) (acc s : String) (h : Mentions acc s = true) :
    Mentions (l.foldl (fun r t => r ++ t) acc) s = true := by
  induction l generalizing acc with
  | nil => exact h
  | cons t l ih => exact ih _ (Mentions_append_left _ _ _ h)

theorem Mentions_foldl_mem (l : List String) (acc s t : String) (ht : t ∈ l)
    (h : Mentions t s = true) : Mentions (l.foldl (fun r t => r ++ t) acc) s = true := by
  induction l generalizing acc with
  | nil => cases ht
  | cons u l ih =>
    rcases List.mem_cons.mp ht with e | e
    · subst e
      exact Mentions_foldl_acc l _ _ (Mentions_append_right acc _ _ h)
    · exact ih _ e

theorem Mentions_joinRows (row : Nat × Tree → String) (cs : List (Nat × Tree)) (x : Nat × Tree)
    (s : String) (hx : x ∈ cs) (h : Mentions (row x) s = true) :
    Mentions (joinRows row cs) s = true := by
  unfold joinRows String.join
  exact Mentions_foldl_mem _ _ _ _ (List.mem_map_of_mem row hx) h

theorem mem_insertByName (x y : Nat × Tree) (l : List (Nat × Tree)) :
    y ∈ insertByName x l ↔ y = x ∨ y ∈ l := by
  induction l with
  | nil => simp [insertByName]
  | cons z l ih =>
    unfold insertByName
    split
    · simp
    · simp only [List.mem_cons, ih]
      tauto

theorem mem_foldl_insertByName (l acc : List (Nat × Tree)) (y : Nat × Tree) :
    y ∈ l.foldl (fun acc x => insertByName x acc) acc ↔ y ∈ acc ∨ y ∈ l := by
  induction l generalizing acc with
  | nil => simp
  | cons x l ih =>
    simp only [List.foldl_cons, ih, mem_insertByName, List.mem_cons]
    tauto

theorem mem_Commands (c : Tree) (i : Nat) (x : Tree) (h : c.commands[i]? = some x) :
    (i, x) ∈ c.Commands := by
  unfold Tree.Commands
  rw [mem_foldl_insertByName]
  right
  exact List.mk_mem_enum_iff_getElem?.mpr h

mutual
theorem topic_of_not_available (t : Tree) (h : t.IsAvailableCommand = false) :
    t.IsAdditionalHelpTopicCommand = true := by
  cases t with
  | node u s l r w a b cs =>
    simp only [Tree.IsAvailableCommand, Bool.or_eq_false_iff] at h
    simp only [Tree.IsAdditionalHelpTopicCommand, Bool.and_eq_true, Bool.not_eq_true']
    exact ⟨h.1, allTopics_of_not_any cs h.2⟩
theorem allTopics_of_not_any (cs : List Tree) (h : Tree.anyAvailable cs = false) :
    Tree.allHelpTopics cs = true := by
  cases cs with
  | nil => rfl
  | cons c cs =>
    simp only [Tree.anyAvailable, Bool.or_eq_false_iff] at h
    simp only [Tree.allHelpTopics, Bool.and_eq_true]
    exact ⟨topic_of_not_available c h.1, allTopics_of_not_any cs h.2⟩
end


theorem Mentions_rpad (s : String) (n : Nat) : Mentions (rpad s n) s = true :=
  Mentions_append_left _ _ _ (Mentions_self s)

theorem helpText_mentions_child (l : Located) (i : Nat) (x : Tree)
    (hx : l.cmd.commands[i]? = some x) (hi : l.helpCommand ≠ some i) :
    Mentions l.helpText x.Name = true := by
  have hsub : l.cmd.HasSubCommands = true := by
    unfold Tree.HasSubCommands
    cases hc : l.cmd.commands with
    | nil => rw [hc] at hx; simp at hx
    | cons a b => rfl
  have hmem : (i, x) ∈ l.cmd.commands.enum := List.mk_mem_enum_iff_getElem?.mpr hx
  unfold Located.helpText
  apply Mentions_append_right
  simp only [hsub, Bool.or_true, if_true]
  unfold Located.UsageString
  by_cases hav : l.childAvailable (i, x) = true
  · have hAS : l.HasAvailableSubCommands = true := by
      unfold Located.HasAvailableSubCommands
      exact List.any_eq_true.mpr ⟨(i, x), hmem, hav⟩
    simp only [hAS, if_true]
    apply Mentions_append_left
    apply Mentions_append_left
    apply Mentions_append_left
    apply Mentions_append_left
    apply Mentions_append_right
    apply Mentions_append_right
    apply Mentions_joinRows _ _ (i, x) _ (mem_Commands _ _ _ hx)
    unfold Located.availableRow
    simp only [hav, Bool.true_or, if_true]
    apply Mentions_append_left
    apply Mentions_append_left
    apply Mentions_append_right
    exact Mentions_rpad _ _
  · have hna : x.IsAvailableCommand = false := by
      cases hxa : x.IsAvailableCommand with
      | false => rfl
      | true =>
        exfalso
        apply hav
        unfold Located.childAvailable
        simp only [hxa, Bool.and_true, Bool.not_eq_true', beq_eq_false_iff_ne, ne_eq]
        exact hi
    have htopic := topic_of_not_available x hna
    have hHS : l.HasHelpSubCommands = true := by
      unfold Located.HasHelpSubCommands
      exact List.any_eq_true.mpr ⟨x, List.getElem?_mem hx, htopic⟩
    simp only [hHS, if_true]
    apply Mentions_append_left
    apply Mentions_append_left
    apply Mentions_append_right
    apply Mentions_append_right
    apply Mentions_joinRows _ _ (i, x) _ (mem_Commands _ _ _ hx)
    unfold Located.topicRow
    simp only [htopic, if_true]
    apply Mentions_append_left
    apply Mentions_append_left
    apply Mentions_append_right
    apply Mentions_append_left
    unfold Tree.CommandPath
    apply Mentions_append_right
    exact Mentions_self _


theorem InitDefaultHelpCmd_Run (c : Tree) : (InitDefaultHelpCmd c).cmd.Run = c.Run := by
  unfold InitDefaultHelpCmd; split <;> simp [Tree.Run]

theorem InitDefaultHelpCmd_ancestors (c : Tree) : (InitDefaultHelpCmd c).ancestors = [] := by
  unfold InitDefaultHelpCmd; split <;> rfl

theorem InitDefaultHelpCmd_pos (c : Tree) : (InitDefaultHelpCmd c).pos = [] := by
  unfold InitDefaultHelpCmd; split <;> rfl

theorem ExecuteC_nil (c : Tree) :
    ExecuteC c [] = some (match c.Run with
      | none =>
        ⟨none, [Event.write ((InitDefaultHelpCmd c).cmd.OutOrStdout [])
          (InitDefaultHelpCmd c).helpText]⟩
      | some f =>
        ⟨none, Event.run [] [] ::
          f.call (InitDefaultHelpCmd c) (InitDefaultHelpCmd c) []⟩) := by
  have h1 := InitDefaultHelpCmd_Run c
  have h2 := InitDefaultHelpCmd_ancestors c
  have h3 := InitDefaultHelpCmd_pos c
  simp only [ExecuteC, supported, List.all_nil, List.head?_nil, Find, innerfind, legacyArgs, h2]
  cases hr : c.Run <;> simp [h1, hr, h2, h3]


theorem completionTree_Name (r : Ptr) : (completionTree r).Name = "completion" := by
  simp [completionTree, Tree.Name, Tree.Use, firstWord_completion]

theorem completionTree_Run (r : Ptr) : (completionTree r).Run = none := rfl

theorem completionTree_outWriter (r : Ptr) : (completionTree r).outWriter = none := rfl

theorem completionTree_commands (r : Ptr) : (completionTree r).commands = completionLeaves r :=
  rfl

theorem versionTree_Name (v : String) : (versionTree v).Name = "version" := by
  simp [versionTree, Tree.Name, Tree.Use, firstWord_version]

theorem versionTree_Run (v : String) : (versionTree v).Run = some (RunFn.printVersion v) := rfl

theorem versionTree_outWriter (v : String) : (versionTree v).outWriter = none := rfl

theorem versionTree_commands (v : String) : (versionTree v).commands = [] := rfl

theorem helpCommandOf_Name (c : Tree) : (helpCommandOf c).Name = "help" := by
  simp [helpCommandOf, Tree.Name, Tree.Use, firstWord_help]

theorem helpCommandOf_Run (c : Tree) : (helpCommandOf c).Run = some RunFn.helpTopic := rfl

theorem helpCommandOf_commands (c : Tree) : (helpCommandOf c).commands = [] := rfl

theorem helpCommandOf_outWriter (c : Tree) : (helpCommandOf c).outWriter = none := rfl

theorem root_commands (v : String) (G M : Tree) :
    (InitDefaultHelpCmd (assembled v G M)).cmd.commands
      = [completionTree 0, versionTree v, G, M, helpCommandOf (assembled v G M)] := by
  simp [InitDefaultHelpCmd, assembled, Tree.HasSubCommands, Tree.commands]

theorem root_ancestors (v : String) (G M : Tree) :
    (InitDefaultHelpCmd (assembled v G M)).ancestors = [] := by
  simp [InitDefaultHelpCmd, assembled, Tree.HasSubCommands, Tree.commands]

theorem root_pos (v : String) (G M : Tree) :
    (InitDefaultHelpCmd (assembled v G M)).pos = [] := by
  simp [InitDefaultHelpCmd, assembled, Tree.HasSubCommands, Tree.commands]

theorem root_helpCommand (v : String) (G M : Tree) :
    (InitDefaultHelpCmd (assembled v G M)).helpCommand = some 4 := by
  simp [InitDefaultHelpCmd, assembled, Tree.HasSubCommands, Tree.commands]

theorem root_outWriter (v : String) (G M : Tree) :
    (InitDefaultHelpCmd (assembled v G M)).cmd.outWriter = some Writer.stdout := by
  simp [InitDefaultHelpCmd, assembled, Tree.HasSubCommands, Tree.commands, Tree.outWriter]

theorem root_Name (v : String) (G M : Tree) :
    (InitDefaultHelpCmd (assembled v G M)).cmd.Name = "tictactoe" := by
  simp [InitDefaultHelpCmd, assembled, Tree.HasSubCommands, Tree.commands, Tree.Name, Tree.Use,
    firstWord_tictactoe]

theorem root_HasSubCommands (v : String) (G M : Tree) :
    (InitDefaultHelpCmd (assembled v G M)).cmd.HasSubCommands = true := by
  simp [Tree.HasSubCommands, root_commands]

theorem bashTree_Name (r : Ptr) : (bashTree r).Name = "bash" := by
  simp [bashTree, Tree.Name, Tree.Use, firstWord_bash]

theorem zshTree_Name (r : Ptr) : (zshTree r).Name = "zsh" := by
  simp [zshTree, Tree.Name, Tree.Use, firstWord_zsh]

theorem fishTree_Name (r : Ptr) : (fishTree r).Name = "fish" := by
  simp [fishTree, Tree.Name, Tree.Use, firstWord_fish]

theorem powershellTree_Name (r : Ptr) : (powershellTree r).Name = "powershell" := by
  simp [powershellTree, Tree.Name, Tree.Use, firstWord_powershell]


theorem call_no_actions (f : RunFn) (root l : Located) (args : List String) :
    (f.call root l args).filterMap Event.action = [] := by
  cases f <;> simp [RunFn.call, Event.action]
  split <;> simp [Event.action]

theorem findNextFrom_first (name : String) (cs : List Tree) (i k : Nat) (x : Tree)
    (hx : cs[i]? = some x) (hn : x.Name = name)
    (hfirst : ∀ j y, j < i → cs[j]? = some y → y.Name ≠ name) :
    findNextFrom name cs k = some (k + i, x) := by
  induction cs generalizing i k with
  | nil => simp at hx
  | cons c cs ih =>
    cases i with
    | zero =>
      simp only [List.getElem?_cons_zero, Option.some.injEq] at hx
      subst hx
      simp [findNextFrom, hn]
    | succ i =>
      have hc : c.Name ≠ name := hfirst 0 c (Nat.succ_pos i) (by simp)
      simp only [List.getElem?_cons_succ] at hx
      have := ih i (k + 1) hx
        (fun j y hj hy => hfirst (j + 1) y (Nat.succ_lt_succ hj) (by simpa using hy))
      simp only [findNextFrom, beq_iff_eq, hc, if_false]
      rw [this]
      congr 2
      omega

theorem findNext_first (c x : Tree) (name : String) (i : Nat)
    (hx : c.commands[i]? = some x) (hn : x.Name = name)
    (hfirst : ∀ j y, j < i → c.commands[j]? = some y → y.Name ≠ name) :
    c.findNext name = some (i, x) := by
  have := findNextFrom_first name c.commands i 0 x hx hn hfirst
  simpa [Tree.findNext] using this

theorem Leads_of_validPath (P : List String) :
    ∀ (c : Tree) (pos : List Nat) (target : Tree),
      validPath c P pos = some target → Leads c P pos target := by
  induction P with
  | nil =>
    intro c pos target h
    cases pos with
    | nil =>
      simp only [validPath, Option.some.injEq] at h
      subst h
      exact Leads.here c
    | cons i pos => simp [validPath] at h
  | cons name P ih =>
    intro c pos target h
    cases pos with
    | nil => simp [validPath] at h
    | cons i pos =>
      simp only [validPath] at h
      cases hx : c.commands[i]? with
      | none => simp [hx] at h
      | some x =>
        simp only [hx] at h
        split at h
        · rename_i hc
          refine Leads.step c x target name i P pos hx hc.1 ?_ (ih x pos target h)
          intro j y hj hy
          apply hc.2
          have : (c.commands.take i)[j]? = some y := by
            rw [List.getElem?_take, if_pos hj]; exact hy
          exact List.getElem?_mem this
        · cases h

theorem legacyArgs_nil (l : Located) : legacyArgs l [] = none := by
  unfold legacyArgs
  split
  · rfl
  · cases l.ancestors <;> rfl

theorem InitDefaultHelpCmd_commands (c : Tree) (h : c.HasSubCommands = true) :
    (InitDefaultHelpCmd c).cmd.commands = c.commands ++ [helpCommandOf c] := by
  unfold InitDefaultHelpCmd
  simp [h, Tree.commands]

theorem returnedTree_eq (v : String) (G M : Tree) :
    returnedTree v G M = some (assembled v G M) := by
  obtain ⟨h, h1, h2⟩ := CreateRootCommand_toTree v G M
  unfold returnedTree
  rw [h1]
  exact h2

theorem root_Run (v : String) (G M : Tree) :
    (InitDefaultHelpCmd (assembled v G M)).cmd.Run = some RunFn.rootHelp := by
  rw [InitDefaultHelpCmd_Run]; rfl

theorem getOut_own (c : Tree) (anc : List Tree) (d w : Writer) (h : c.outWriter = some w) :
    c.getOut anc d = w := by
  cases anc <;> simp [Tree.getOut, h]

theorem getOut_inherited (c p : Tree) (above : List Tree) (d : Writer)
    (h : c.outWriter = none) : c.getOut (p :: above) d = p.getOut above d := by
  simp [Tree.getOut, h]

theorem assembled_commands (v : String) (G M : Tree) :
    (assembled v G M).commands = [completionTree 0, versionTree v, G, M] := rfl

theorem exampleGame_Name : exampleGame.Name = "game" := by decide

theorem exampleMetadata_Name : exampleMetadata.Name = "metadata" := by decide

theorem root_findNext_none (v : String) (G M : Tree) (u : String)
    (h1 : u ≠ "completion") (h2 : u ≠ "version") (h3 : u ≠ G.Name) (h4 : u ≠ M.Name)
    (h5 : u ≠ "help") :
    (InitDefaultHelpCmd (assembled v G M)).cmd.findNext u = none := by
  simp [Tree.findNext, root_commands, findNextFrom, completionTree_Name, versionTree_Name,
    helpCommandOf_Name, Ne.symm h1, Ne.symm h2, Ne.symm h3, Ne.symm h4, Ne.symm h5]

theorem innerfind_leaf (l : Located) (args : List String) (h : l.cmd.commands = []) :
    innerfind l args = (l, args) := by
  cases args <;> simp [innerfind, Tree.findNext, findNextFrom, h]

theorem legacyArgs_below_root (l : Located) (args : List String) (h : l.ancestors ≠ []) :
    legacyArgs l args = none := by
  unfold legacyArgs
  split
  · rfl
  · cases ha : l.ancestors with
    | nil => exact absurd ha h
    | cons p above => rfl

theorem root_findNext_completion (v : String) (G M : Tree) :
    (InitDefaultHelpCmd (assembled v G M)).cmd.findNext "completion"
      = some (0, completionTree 0) := by
  simp [Tree.findNext, root_commands, findNextFrom, completionTree_Name]

theorem root_findNext_version (v : String) (G M : Tree) :
    (InitDefaultHelpCmd (assembled v G M)).cmd.findNext "version" = some (1, versionTree v) := by
  simp [Tree.findNext, root_commands, findNextFrom, completionTree_Name, versionTree_Name]

theorem supported_cons (a : String) (rest : List String) (ha : plainWord a = true)
    (h1 : a ≠ "__complete") (h2 : a ≠ "__completeNoDesc") (hr : rest.all plainWord = true) :
    supported (a :: rest) = true := by
  simp only [supported, List.all_cons, ha, hr, Bool.and_self, List.head?_cons, Bool.true_and,
    Bool.not_eq_true', Bool.or_eq_false_iff, beq_eq_false_iff_ne, ne_eq, Option.some.injEq]
  exact ⟨h1, h2⟩

/-- A closure of `cmd.go` writes where its command resolves its output. -/
theorem router_closure_writes (f : RunFn) (top l : Located) (args : List String)
    (hf : f ≠ RunFn.helpTopic) (hf2 : ∀ tag, f ≠ RunFn.external tag)
    (hout : ∀ d, l.cmd.getOut l.ancestors d = Writer.stdout) :
    ∀ e ∈ f.call top l args, e.writer = some Writer.stdout := by
  intro e he
  cases f
  case helpTopic => exact absurd rfl hf
  case external tag => exact absurd rfl (hf2 tag)
  all_goals
    simp only [RunFn.call, Tree.OutOrStdout, Tree.OutOrStderr, hout, List.mem_singleton] at he
    subst he
    rfl

theorem plainWord_not_flagLike (w : String) (h : plainWord w = true) : flagLike w = false := by
  unfold plainWord at h
  unfold flagLike
  split
  · rename_i e; rw [e] at h; simp at h
  · rfl

theorem unknownFlag_flagLike (f : String) (h : unknownFlag f = true) : flagLike f = true := by
  unfold unknownFlag at h
  unfold flagLike
  split at h
  · rename_i name e; rw [e]
    cases name with
    | nil => simp at h
    | cons a b => rfl
  · rename_i ch rest _ e; rw [e]; rfl
  · cases h

theorem flagLike_not_plainWord (f : String) (h : flagLike f = true) : plainWord f = false := by
  unfold flagLike at h
  unfold plainWord
  split at h
  · rename_i e; rw [e]; rfl
  · cases h

theorem scanFlags_plain (a : List String) (h : a.all plainWord = true) :
    scanFlags a = FlagScan.positional := by
  induction a with
  | nil => rfl
  | cons w rest ih =>
    simp only [List.all_cons, Bool.and_eq_true] at h
    simp only [scanFlags, plainWord_not_flagLike w h.1, Bool.false_eq_true, if_false]
    exact ih h.2

theorem scanFlags_unknown (pre post : List String) (f : String)
    (hpre : pre.all plainWord = true) (hf : unknownFlag f = true) :
    scanFlags (pre ++ f :: post) = FlagScan.unknown f := by
  induction pre with
  | nil => simp [scanFlags, unknownFlag_flagLike f hf, hf]
  | cons w rest ih =>
    simp only [List.all_cons, Bool.and_eq_true] at hpre
    simp only [List.cons_append, scanFlags, plainWord_not_flagLike w hpre.1, Bool.false_eq_true,
      if_false]
    exact ih hpre.2

theorem innerfindFlags_plain (args : List String) (h : args.all plainWord = true) :
    ∀ l : Located, innerfindFlags l args = some (innerfind l args) := by
  induction args with
  | nil => intro l; rfl
  | cons w rest ih =>
    intro l
    simp only [List.all_cons, Bool.and_eq_true] at h
    cases hfn : l.cmd.findNext w with
    | none => simp [innerfindFlags, innerfind, h.1, hfn]
    | some p =>
      obtain ⟨i, x⟩ := p
      simp only [innerfindFlags, innerfind, h.1, if_true, hfn]
      exact ih h.2 _

theorem innerfindFlags_leaf (l : Located) (args : List String) (h : l.cmd.commands = []) :
    innerfindFlags l args = some (l, args) := by
  cases args with
  | nil => rfl
  | cons w rest =>
    simp [innerfindFlags, Tree.findNext, findNextFrom, h]

theorem innerfind_rest_plain (args : List String) (h : args.all plainWord = true) :
    ∀ l : Located, (innerfind l args).2.all plainWord = true := by
  induction args with
  | nil => intro l; rfl
  | cons w rest ih =>
    intro l
    simp only [innerfind]
    split
    · simp only [List.all_cons, Bool.and_eq_true] at h
      exact ih h.2 _
    · exact h

theorem filter_plain (a : List String) (h : a.all plainWord = true) :
    a.filter plainWord = a := by
  rw [List.filter_eq_self]
  intro x hx
  exact (List.all_eq_true.mp h) x hx

theorem hiddenRequest_supported (root : Located) (args : List String)
    (h : supported args = true) : hiddenRequest root args = false := by
  cases args with
  | nil => rfl
  | cons w rest =>
    simp only [supported, List.all_cons, List.head?_cons, Bool.and_eq_true, Bool.not_eq_true',
      Bool.or_eq_false_iff, beq_eq_false_iff_ne, ne_eq, Option.some.injEq] at h
    simp [hiddenRequest, List.find?, h.1.1, h.2.1, h.2.2]

theorem ExecuteCFlags_supported (c : Tree) (own : List (List Nat)) (args : List String)
    (h : supported args = true) :
    ExecuteCFlags c own args = (ExecuteC c args).map Result.done := by
  have hp : args.all plainWord = true := by
    simp only [supported, Bool.and_eq_true] at h
    exact h.1
  have hr := innerfind_rest_plain args hp (InitDefaultHelpCmd c)
  simp only [ExecuteCFlags, hiddenRequest_supported _ _ h, Bool.false_eq_true, if_false,
    innerfindFlags_plain args hp, ExecuteC, h, Bool.not_true, Find, filter_plain _ hr,
    scanFlags_plain _ hr]
  cases hl : legacyArgs (innerfind (InitDefaultHelpCmd c) args).1
      (innerfind (InitDefaultHelpCmd c) args).2 with
  | some e => cases e; simp
  | none =>
    simp only []
    cases hrun : (innerfind (InitDefaultHelpCmd c) args).1.cmd.Run with
    | none => simp
    | some f => simp [hr]

theorem dispatchFlags_eq (v : String) (G M : Tree) (args : List String) :
    dispatchFlags v G M args = ExecuteCFlags (assembled v G M) routerBuilt args := by
  obtain ⟨h, h1, h2⟩ := CreateRootCommand_toTree v G M
  unfold dispatchFlags
  rw [h1]
  dsimp only
  rw [h2]

theorem innerfind_descend (c : Tree) (P : List String) (pos : List Nat) (target : Tree)
    (hl : Leads c P pos target) :
    ∀ l : Located, l.cmd = c →
      ∃ l2, l.descend pos = some l2 ∧ l2.cmd = target ∧ l2.pos = l.pos ++ pos ∧
        innerfind l P = (l2, []) := by
  induction hl with
  | here c =>
    intro l _
    exact ⟨l, rfl, by assumption, by simp, by simp [innerfind]⟩
  | step c x target name i P pos hx hn hfirst _ ih =>
    intro l hc
    subst hc
    obtain ⟨l2, h1, h2, h3, h4⟩ := ih ⟨x, l.cmd :: l.ancestors, l.pos ++ [i], none⟩ rfl
    refine ⟨l2, ?_, h2, ?_, ?_⟩
    · simp only [Located.descend, Located.child, hx]
      exact h1
    · rw [h3]; simp
    · simp only [innerfind, findNext_first l.cmd x name i hx hn hfirst]
      exact h4

theorem InitDefaultHelpCmd_Name (c : Tree) : (InitDefaultHelpCmd c).cmd.Name = c.Name := by
  unfold InitDefaultHelpCmd
  split <;> simp [Tree.Name, Tree.Use]

theorem ExecuteCFlags_of_Leads (t : Tree) (own : List (List Nat)) (P : List String)
    (pos : List Nat) (target : Tree)
    (hl : Leads t P pos target) (hw : P.all plainWord = true) :
    ∃ l, (InitDefaultHelpCmd t).descend pos = some l ∧ l.cmd.Run = target.Run ∧
      l.cmd.Name = target.Name ∧ (P ≠ [] → l.cmd = target) ∧ l.pos = pos ∧
      ExecuteCFlags t own P = some (Result.done
        (match l.cmd.Run with
          | none => ⟨none, [Event.write (l.cmd.OutOrStdout l.ancestors) l.helpText]⟩
          | some f => ⟨none, Event.run pos [] :: f.call (InitDefaultHelpCmd t) l []⟩)) := by
  cases hl with
  | here =>
    refine ⟨InitDefaultHelpCmd t, rfl, InitDefaultHelpCmd_Run t, InitDefaultHelpCmd_Name t,
      fun h => absurd rfl h, InitDefaultHelpCmd_pos t, ?_⟩
    simp only [ExecuteCFlags, hiddenRequest, List.find?, innerfindFlags, List.filter_nil,
      legacyArgs_nil, scanFlags, Bool.false_eq_true, if_false]
    cases hr : (InitDefaultHelpCmd t).cmd.Run with
    | none => rfl
    | some f => simp [InitDefaultHelpCmd_pos]
  | step c x target name i P pos hx hn hfirst hl2 =>
    have hsub : t.HasSubCommands = true := by
      unfold Tree.HasSubCommands
      cases hc : t.commands with
      | nil => rw [hc] at hx; simp at hx
      | cons a b => rfl
    have hi : i < t.commands.length := (List.getElem?_eq_some.mp hx).1
    have hx2 : (InitDefaultHelpCmd t).cmd.commands[i]? = some x := by
      rw [InitDefaultHelpCmd_commands t hsub, List.getElem?_append_left hi]
      exact hx
    have hfind : (InitDefaultHelpCmd t).cmd.findNext name = some (i, x) := by
      apply findNext_first _ _ _ _ hx2 hn
      intro j y hj hy
      rw [InitDefaultHelpCmd_commands t hsub,
        List.getElem?_append_left (Nat.lt_trans hj hi)] at hy
      exact hfirst j y hj hy
    simp only [List.all_cons, Bool.and_eq_true] at hw
    obtain ⟨l2, h1, h2, h3, h4⟩ := innerfind_descend x P pos target hl2
      ⟨x, (InitDefaultHelpCmd t).cmd :: (InitDefaultHelpCmd t).ancestors,
        (InitDefaultHelpCmd t).pos ++ [i], none⟩ rfl
    have hp : l2.pos = i :: pos := by
      rw [h3]; simp [InitDefaultHelpCmd_pos]
    refine ⟨l2, ?_, by rw [h2], by rw [h2], fun _ => h2, hp, ?_⟩
    · simp only [Located.descend, Located.child, hx2]
      exact h1
    · have hh : hiddenRequest (InitDefaultHelpCmd t) (name :: P) = false := by
        simp [hiddenRequest, List.find?, hw.1, hfind]
      have hall : (name :: P).all plainWord = true := by
        simp only [List.all_cons, hw.1, hw.2, Bool.and_self]
      simp only [ExecuteCFlags, hh, Bool.false_eq_true, if_false,
        innerfindFlags_plain _ hall, innerfind, hfind, h4, List.filter_nil, legacyArgs_nil,
        scanFlags]
      cases hr : l2.cmd.Run with
      | none => rfl
      | some f => simp [hp]

theorem hiddenRequest_word (v : String) (G M : Tree) (w : String) (rest : List String)
    (hw : plainWord w = true) (h1 : w ≠ "__complete") (h2 : w ≠ "__completeNoDesc") :
    hiddenRequest (InitDefaultHelpCmd (assembled v G M)) (w :: rest) = false := by
  simp [hiddenRequest, List.find?, hw, h1, h2]

theorem hiddenRequest_flag (root : Located) (f : String) (hf : unknownFlag f = true) :
    hiddenRequest root [f] = false := by
  simp [hiddenRequest, List.find?, flagLike_not_plainWord f (unknownFlag_flagLike f hf)]

theorem root_OutOrStderr (v : String) (G M : Tree) :
    (InitDefaultHelpCmd (assembled v G M)).cmd.OutOrStderr
      (InitDefaultHelpCmd (assembled v G M)).ancestors = Writer.stdout := by
  unfold Tree.OutOrStderr
  exact getOut_own _ _ _ _ (root_outWriter v G M)

theorem completion_findNext_none (u : String)
    (hne : u ∉ ["bash", "zsh", "fish", "powershell"]) :
    (completionTree 0).findNext u = none := by
  simp only [List.mem_cons, List.mem_singleton, List.not_mem_nil, or_false, not_or] at hne
  simp [Tree.findNext, completionTree_commands, completionLeaves, findNextFrom,
    bashTree_Name, zshTree_Name, fishTree_Name, powershellTree_Name, Ne.symm hne.1,
    Ne.symm hne.2.1, Ne.symm hne.2.2.1, Ne.symm hne.2.2.2]

theorem innerfindFlags_of_Leads_leaf (c : Tree) (Q : List String) (q : List Nat)
    (target : Tree) (tail : List String) (h : Leads c Q q target)
    (hleaf : target.commands = []) :
    Q.all plainWord = true → ∀ l : Located, l.cmd = c →
      ∃ l2, l.descend q = some l2 ∧ l2.cmd = target ∧ l2.pos = l.pos ++ q ∧
        (Q ≠ [] → l2.ancestors ≠ []) ∧
        innerfindFlags l (Q ++ tail) = some (l2, tail) := by
  induction h with
  | here c =>
    intro _ l hc
    exact ⟨l, rfl, hc, by simp, fun h => absurd rfl h,
      innerfindFlags_leaf l _ (by rw [hc]; exact hleaf)⟩
  | step c x target name i Q q hx hn hfirst hl3 ih =>
    intro hQ l hc
    subst hc
    simp only [List.all_cons, Bool.and_eq_true] at hQ
    obtain ⟨l2, h1, h2, h3, h4, h5⟩ := ih hleaf hQ.2
      ⟨x, l.cmd :: l.ancestors, l.pos ++ [i], none⟩ rfl
    refine ⟨l2, ?_, h2, ?_, ?_, ?_⟩
    · simp only [Located.descend, Located.child, hx]
      exact h1
    · rw [h3]; simp
    · intro _
      cases hl3 with
      | here =>
        simp only [Located.descend, Option.some.injEq] at h1
        rw [← h1]; simp
      | step => exact h4 (by simp)
    · simp only [List.cons_append, innerfindFlags, hQ.1, if_true,
        findNext_first l.cmd x name i hx hn hfirst]
      exact h5

theorem ExecuteCFlags_leaf_flag (t : Tree) (own : List (List Nat)) (P : List String)
    (pos : List Nat) (target : Tree) (pre post : List String) (f : String)
    (hl : Leads t P pos target) (hP : P.all plainWord = true) (hne : P ≠ [])
    (hleaf : target.commands = []) (hown : own.contains pos = true)
    (hpre : pre.all plainWord = true) (hf : unknownFlag f = true) :
    ∃ l, (InitDefaultHelpCmd t).descend pos = some l ∧ l.cmd = target ∧
      ExecuteCFlags t own (P ++ (pre ++ f :: post)) = some (Result.flagError
        ⟨pos, f, Writer.stderr,
          (InitDefaultHelpCmd t).cmd.OutOrStderr (InitDefaultHelpCmd t).ancestors,
          l.UsageString true ++ "\n"⟩) := by
  cases hl with
  | here => exact absurd rfl hne
  | step c x target name i P pos hx hn hfirst hl2 =>
    have hsub : t.HasSubCommands = true := by
      unfold Tree.HasSubCommands
      cases hc : t.commands with
      | nil => rw [hc] at hx; simp at hx
      | cons a b => rfl
    have hi : i < t.commands.length := (List.getElem?_eq_some.mp hx).1
    have hx2 : (InitDefaultHelpCmd t).cmd.commands[i]? = some x := by
      rw [InitDefaultHelpCmd_commands t hsub, List.getElem?_append_left hi]
      exact hx
    have hfirst2 : ∀ j y, j < i → (InitDefaultHelpCmd t).cmd.commands[j]? = some y →
        y.Name ≠ name := by
      intro j y hj hy
      rw [InitDefaultHelpCmd_commands t hsub,
        List.getElem?_append_left (Nat.lt_trans hj hi)] at hy
      exact hfirst j y hj hy
    have hfind := findNext_first _ _ _ _ hx2 hn hfirst2
    obtain ⟨l2, h1, h2, h3, h4, h5⟩ := innerfindFlags_of_Leads_leaf _ _ _ _
      (pre ++ f :: post)
      (Leads.step (InitDefaultHelpCmd t).cmd x target name i P pos hx2 hn hfirst2 hl2) hleaf hP
      (InitDefaultHelpCmd t) rfl
    have hp : l2.pos = i :: pos := by
      rw [h3]; simp [InitDefaultHelpCmd_pos]
    simp only [List.all_cons, Bool.and_eq_true] at hP
    have hh : hiddenRequest (InitDefaultHelpCmd t) (name :: P ++ (pre ++ f :: post))
        = false := by
      simp [hiddenRequest, List.find?, hP.1, hfind]
    refine ⟨l2, h1, h2, ?_⟩
    simp only [ExecuteCFlags, hh, Bool.false_eq_true, if_false, h5,
      legacyArgs_below_root _ _ (h4 (by simp)), scanFlags_unknown pre post f hpre hf, hp, hown,
      if_true]

theorem Leads_version (v : String) (G M : Tree) :
    Leads (assembled v G M) ["version"] [1] (versionTree v) := by
  refine Leads.step _ _ _ _ _ _ _ rfl (versionTree_Name v) ?_ (Leads.here _)
  intro j y hj hy
  have hj0 : j = 0 := by omega
  subst hj0
  simp only [assembled_commands, List.getElem?_cons_zero, Option.some.injEq] at hy
  subst hy
  rw [completionTree_Name]
  decide

theorem Leads_completion_leaf (v : String) (G M : Tree) (k : Nat) (x : Tree) (name : String)
    (hx : (completionLeaves 0)[k]? = some x) (hn : x.Name = name)
    (hfirst : ∀ j y, j < k → (completionLeaves 0)[j]? = some y → y.Name ≠ name) :
    Leads (assembled v G M) ["completion", name] [0, k] x := by
  refine Leads.step _ _ _ _ _ _ _ rfl (completionTree_Name 0) ?_ ?_
  · intro j y hj; omega
  · exact Leads.step _ _ _ _ _ _ _ hx hn hfirst (Leads.here _)

theorem Leads_bash (v : String) (G M : Tree) :
    Leads (assembled v G M) ["completion", "bash"] [0, 0] (bashTree 0) :=
  Leads_completion_leaf v G M 0 _ _ rfl (bashTree_Name 0) (fun j y hj => by omega)

theorem leaves_names (j : Nat) (y : Tree) (h : (completionLeaves 0)[j]? = some y) :
    (j = 0 ∧ y.Name = "bash") ∨ (j = 1 ∧ y.Name = "zsh") ∨ (j = 2 ∧ y.Name = "fish") ∨
      (j = 3 ∧ y.Name = "powershell") := by
  match j, h with
  | 0, h =>
    simp only [completionLeaves, List.getElem?_cons_zero, Option.some.injEq] at h
    subst h; exact Or.inl ⟨rfl, bashTree_Name 0⟩
  | 1, h =>
    simp only [completionLeaves, List.getElem?_cons_succ, List.getElem?_cons_zero,
      Option.some.injEq] at h
    subst h; exact Or.inr (Or.inl ⟨rfl, zshTree_Name 0⟩)
  | 2, h =>
    simp only [completionLeaves, List.getElem?_cons_succ, List.getElem?_cons_zero,
      Option.some.injEq] at h
    subst h; exact Or.inr (Or.inr (Or.inl ⟨rfl, fishTree_Name 0⟩))
  | 3, h =>
    simp only [completionLeaves, List.getElem?_cons_succ, List.getElem?_cons_zero,
      Option.some.injEq] at h
    subst h; exact Or.inr (Or.inr (Or.inr ⟨rfl, powershellTree_Name 0⟩))
  | n + 4, h => simp [completionLeaves] at h

theorem Leads_zsh (v : String) (G M : Tree) :
    Leads (assembled v G M) ["completion", "zsh"] [0, 1] (zshTree 0) :=
  Leads_completion_leaf v G M 1 _ _ rfl (zshTree_Name 0) (fun j y hj hy => by
    rcases leaves_names j y hy with h | h | h | h
    · rw [h.2]; decide
    all_goals omega)

theorem Leads_fish (v : String) (G M : Tree) :
    Leads (assembled v G M) ["completion", "fish"] [0, 2] (fishTree 0) :=
  Leads_completion_leaf v G M 2 _ _ rfl (fishTree_Name 0) (fun j y hj hy => by
    rcases leaves_names j y hy with h | h | h | h
    · rw [h.2]; decide
    · rw [h.2]; decide
    all_goals omega)

theorem Leads_powershell (v : String) (G M : Tree) :
    Leads (assembled v G M) ["completion", "powershell"] [0, 3] (powershellTree 0) :=
  Leads_completion_leaf v G M 3 _ _ rfl (powershellTree_Name 0) (fun j y hj hy => by
    rcases leaves_names j y hy with h | h | h | h
    · rw [h.2]; decide
    · rw [h.2]; decide
    · rw [h.2]; decide
    · omega)

theorem dispatchFlags_leaf_flag (v : String) (G M : Tree) (P : List String) (pos : List Nat)
    (target : Tree) (pre post : List String) (f : String)
    (hl : Leads (assembled v G M) P pos target) (hP : P.all plainWord = true) (hne : P ≠ [])
    (hleaf : target.commands = []) (hown : routerBuilt.contains pos = true)
    (hpre : pre.all plainWord = true) (hf : unknownFlag f = true) :
    ∃ l, (InitDefaultHelpCmd (assembled v G M)).descend pos = some l ∧
      dispatchFlags v G M (P ++ (pre ++ f :: post)) = some (Result.flagError
        ⟨pos, f, Writer.stderr, Writer.stdout, l.UsageString true ++ "\n"⟩) := by
  obtain ⟨l, h1, _, h3⟩ := ExecuteCFlags_leaf_flag _ routerBuilt P pos target pre post f hl hP
    hne hleaf hown hpre hf
  rw [root_OutOrStderr] at h3
  exact ⟨l, h1, by rw [dispatchFlags_eq]; exact h3⟩

theorem dispatchFlags_supported (v : String) (G M : Tree) (args : List String)
    (h : supported args = true) :
    dispatchFlags v G M args = (dispatch v G M args).map Result.done := by
  rw [dispatchFlags_eq, dispatch_eq]
  exact ExecuteCFlags_supported _ _ _ h

theorem filter_not_plain (tail : List String)
    (h : tail.all (fun s => !plainWord s) = true) : tail.filter plainWord = [] := by
  rw [List.filter_eq_nil_iff]
  intro x hx
  have := (List.all_eq_true.mp h) x hx
  simpa using this

theorem find_not_plain (tail : List String)
    (h : tail.all (fun s => !plainWord s) = true) : tail.find? plainWord = none := by
  rw [List.find?_eq_none]
  intro x hx
  have := (List.all_eq_true.mp h) x hx
  simpa using this

/-! ## The claims -/

/-- C1: for every value `v` of the build-time version constant (and whatever the two
collaborator subtrees are), dispatching `["version"]` on the tree of `CreateRootCommand`
succeeds, calls the action of `version` and writes exactly `v` followed by one newline
to standard output; nothing else is written, so nothing goes to standard error. -/
theorem C1_version_prints_to_stdout (v : String) (G M : Tree) :
    dispatch v G M ["version"]
      = some ⟨none, [Event.run [1] [], Event.write Writer.stdout (v ++ "\n")]⟩ := by
  rw [dispatch_eq]
  simp [ExecuteC, supported, plainWord, InitDefaultHelpCmd, assembled, Find, innerfind,
    Tree.findNext, findNextFrom, Tree.Name, legacyArgs, RunFn.call, Tree.OutOrStderr,
    Tree.getOut, Tree.HasSubCommands, Tree.commands, Tree.Use, Tree.Run, Tree.outWriter,
    completionTree, versionTree, firstWord_completion, firstWord_version]

/-- C3: for each shell `s` of bash, zsh, fish, powershell, dispatching `["completion", s]`
calls the action of that leaf, which calls the completion generator exactly once, with the
selector of `s`, on `rootCmd`, the very pointer `CreateRootCommand` returns, and with
standard output as target (fish also gets the description switch `true`). The tree under
`rootCmd` is the finished one, with all four top-level children, although the completion
group was created before the last three were added. -/
theorem C3_completion_leaf_calls_generator (v : String) (G M : Tree) :
    ∃ rootCmd h t, CreateRootCommand v G M = some (rootCmd, h) ∧ toTree h rootCmd = some t ∧
      (∃ c ver, t.commands = [c, ver, G, M]) ∧
      dispatch v G M ["completion", "bash"]
        = some ⟨none, [Event.run [0, 0] [],
            Event.generate Shell.bash rootCmd Writer.stdout none]⟩ ∧
      dispatch v G M ["completion", "zsh"]
        = some ⟨none, [Event.run [0, 1] [],
            Event.generate Shell.zsh rootCmd Writer.stdout none]⟩ ∧
      dispatch v G M ["completion", "fish"]
        = some ⟨none, [Event.run [0, 2] [],
            Event.generate Shell.fish rootCmd Writer.stdout (some true)]⟩ ∧
      dispatch v G M ["completion", "powershell"]
        = some ⟨none, [Event.run [0, 3] [],
            Event.generate Shell.powershell rootCmd Writer.stdout none]⟩ := by
  obtain ⟨h, h1, h2⟩ := CreateRootCommand_toTree v G M
  refine ⟨0, h, assembled v G M, h1, h2, ⟨_, _, rfl⟩, ?_, ?_, ?_, ?_⟩ <;>
  · rw [dispatch_eq]
    simp [ExecuteC, supported, plainWord, InitDefaultHelpCmd, assembled, Find, innerfind,
      Tree.findNext, findNextFrom, Tree.Name, legacyArgs, RunFn.call, Tree.OutOrStdout,
      Tree.getOut, Tree.HasSubCommands, Tree.commands, Tree.Use, Tree.Run, Tree.outWriter,
      completionTree, completionLeaves, bashTree, zshTree, fishTree, powershellTree,
      firstWord_completion, firstWord_bash, firstWord_zsh, firstWord_fish, firstWord_powershell]

/-- C4: for every pair of subtrees `G` and `M` of the collaborators, `CreateRootCommand`
returns a parentless command named `tictactoe` with exactly four children, in insertion
order: the `completion` group (with its four leaves), the `version` command, `G` and `M`;
`G` and `M` are there as the values they were handed over (name, help texts, action and
children unchanged). -/
theorem C4_root_has_four_children (v : String) (G M : Tree) :
    ∃ rootCmd h t, CreateRootCommand v G M = some (rootCmd, h) ∧ toTree h rootCmd = some t ∧
      t.Name = "tictactoe" ∧
      ∃ c ver, t.commands = [c, ver, G, M] ∧
        c.Name = "completion" ∧
        c.commands.map Tree.Name = ["bash", "zsh", "fish", "powershell"] ∧
        ver.Name = "version" := by
  obtain ⟨h, h1, h2⟩ := CreateRootCommand_toTree v G M
  refine ⟨0, h, assembled v G M, h1, h2, ?_, completionTree 0, versionTree v, rfl,
    completionTree_Name 0, ?_, versionTree_Name v⟩
  · simp [assembled, Tree.Name, Tree.Use, firstWord_tictactoe]
  · simp [completionTree_commands, completionLeaves, bashTree_Name, zshTree_Name,
      fishTree_Name, powershellTree_Name]

/-- C5: on any heap and for any pointer `rootCmd`, `CreateCompletionCommand` returns a
fresh parentless command named `completion` that has no action of its own and exactly
four children named `bash`, `zsh`, `fish`, `powershell` in that order; each of the four
has an action and no children, and the four names are pairwise distinct. -/
theorem C5_completion_group_shape (rootCmd : Ptr) (h : Heap) :
    ∃ h1 t, CreateCompletionCommand rootCmd h = some (h.length, h1) ∧
      toTree h1 h.length = some t ∧
      t.Name = "completion" ∧ t.Run = none ∧
      t.commands.map Tree.Name = ["bash", "zsh", "fish", "powershell"] ∧
      (∀ c ∈ t.commands, c.Run.isSome = true ∧ c.commands = []) ∧
      (t.commands.map Tree.Name).Nodup := by
  obtain ⟨h1, e1, e2⟩ := CreateCompletionCommand_toTree rootCmd h
  refine ⟨h1, completionTree rootCmd, e1, e2, ?_, ?_, ?_, ?_, ?_⟩
  · simp [completionTree, Tree.Name, Tree.Use, firstWord_completion]
  · simp [completionTree, Tree.Run]
  · simp [completionTree, completionLeaves, bashTree, zshTree, fishTree, powershellTree,
      Tree.commands, Tree.Name, Tree.Use, firstWord_bash, firstWord_zsh, firstWord_fish,
      firstWord_powershell]
  · simp [completionTree, completionLeaves, bashTree, zshTree, fishTree, powershellTree,
      Tree.commands, Tree.Run]
  · simp [completionTree, completionLeaves, bashTree, zshTree, fishTree, powershellTree,
      Tree.commands, Tree.Name, Tree.Use, firstWord_bash, firstWord_zsh, firstWord_fish,
      firstWord_powershell]

/-- C2: every command that `cmd.go` builds itself (the root, `completion`, its leaves
`bash`, `zsh`, `fish`, `powershell`, and `version`) resolves its output stream to
standard output, whatever the default `d` of the framework is (`OutOrStdout` has
`d = stdout`, `OutOrStderr`, which `Println` uses, has `d = stderr`); so every event of
the action of such a command, called with any arguments, writes to standard output. This
holds in the tree as `CreateRootCommand` returns it and as `ExecuteC` prepares it. -/
theorem C2_router_commands_write_to_stdout (v : String) (G M : Tree) :
    ∃ t, returnedTree v G M = some t ∧
      ∀ root : Located, root = ⟨t, [], [], none⟩ ∨ root = InitDefaultHelpCmd t →
        ∀ pos ∈ routerBuilt, ∃ l, root.descend pos = some l ∧
          (∀ d, l.cmd.getOut l.ancestors d = Writer.stdout) ∧
          ∀ f, l.cmd.Run = some f → ∀ top args, ∀ e ∈ f.call top l args,
            e.writer = some Writer.stdout := by
  refine ⟨assembled v G M, returnedTree_eq v G M, ?_⟩
  intro root hroot pos hpos
  have hcs : ∃ extra, root.cmd.commands = completionTree 0 :: versionTree v :: extra := by
    rcases hroot with e | e
    · exact ⟨_, by rw [e]; rfl⟩
    · exact ⟨_, by rw [e, root_commands]⟩
  have hw : root.cmd.outWriter = some Writer.stdout := by
    rcases hroot with e | e
    · rw [e]; rfl
    · rw [e, root_outWriter]
  have hr : root.cmd.Run = some RunFn.rootHelp := by
    rcases hroot with e | e
    · rw [e]; rfl
    · rw [e, root_Run]
  obtain ⟨extra, hcs⟩ := hcs
  have hroot_out : ∀ anc d, root.cmd.getOut anc d = Writer.stdout :=
    fun anc d => getOut_own _ _ _ _ hw
  have hchild_out : ∀ (c : Tree) anc d, c.outWriter = none →
      c.getOut (root.cmd :: anc) d = Writer.stdout := by
    intro c anc d hc
    rw [getOut_inherited _ _ _ _ hc]
    exact hroot_out _ _
  have hleaf_out : ∀ (c : Tree) anc d, c.outWriter = none →
      c.getOut (completionTree 0 :: root.cmd :: anc) d = Writer.stdout := by
    intro c anc d hc
    rw [getOut_inherited _ _ _ _ hc]
    exact hchild_out _ _ _ (completionTree_outWriter 0)
  have key : ∀ (l : Located) (g : RunFn), g ≠ RunFn.helpTopic →
      (∀ tag, g ≠ RunFn.external tag) →
      (∀ d, l.cmd.getOut l.ancestors d = Writer.stdout) →
      ∀ f, some g = some f → ∀ top args, ∀ e ∈ f.call top l args,
        e.writer = some Writer.stdout := by
    intro l g hg1 hg2 hout f hf top args e he
    cases hf
    exact router_closure_writes g top l args hg1 hg2 hout e he
  simp only [routerBuilt, List.mem_cons, List.mem_singleton, List.not_mem_nil, or_false] at hpos
  rcases hpos with e | e | e | e | e | e | e <;> subst e
  · refine ⟨root, rfl, hroot_out _, ?_⟩
    rw [hr]
    exact key root _ (by simp) (by simp) (hroot_out _)
  · refine ⟨⟨completionTree 0, root.cmd :: root.ancestors, root.pos ++ [0], none⟩, ?_,
      fun d => hchild_out _ _ d (completionTree_outWriter 0), ?_⟩
    · simp [Located.descend, Located.child, hcs]
    · intro f hf
      simp [completionTree_Run] at hf
  · refine ⟨⟨bashTree 0, completionTree 0 :: root.cmd :: root.ancestors,
      root.pos ++ [0] ++ [0], none⟩, ?_, fun d => hleaf_out _ _ d rfl, ?_⟩
    · simp [Located.descend, Located.child, hcs, completionTree_commands, completionLeaves]
    · exact key _ (RunFn.genBash 0) (by simp) (by simp) (fun d => hleaf_out _ _ d rfl)
  · refine ⟨⟨zshTree 0, completionTree 0 :: root.cmd :: root.ancestors,
      root.pos ++ [0] ++ [1], none⟩, ?_, fun d => hleaf_out _ _ d rfl, ?_⟩
    · simp [Located.descend, Located.child, hcs, completionTree_commands, completionLeaves]
    · exact key _ (RunFn.genZsh 0) (by simp) (by simp) (fun d => hleaf_out _ _ d rfl)
  · refine ⟨⟨fishTree 0, completionTree 0 :: root.cmd :: root.ancestors,
      root.pos ++ [0] ++ [2], none⟩, ?_, fun d => hleaf_out _ _ d rfl, ?_⟩
    · simp [Located.descend, Located.child, hcs, completionTree_commands, completionLeaves]
    · exact key _ (RunFn.genFish 0) (by simp) (by simp) (fun d => hleaf_out _ _ d rfl)
  · refine ⟨⟨powershellTree 0, completionTree 0 :: root.cmd :: root.ancestors,
      root.pos ++ [0] ++ [3], none⟩, ?_, fun d => hleaf_out _ _ d rfl, ?_⟩
    · simp [Located.descend, Located.child, hcs, completionTree_commands, completionLeaves]
    · exact key _ (RunFn.genPowerShell 0) (by simp) (by simp) (fun d => hleaf_out _ _ d rfl)
  · refine ⟨⟨versionTree v, root.cmd :: root.ancestors, root.pos ++ [1], none⟩, ?_,
      fun d => hchild_out _ _ d rfl, ?_⟩
    · simp [Located.descend, Located.child, hcs]
    · exact key _ (RunFn.printVersion v) (by simp) (by simp) (fun d => hchild_out _ _ d rfl)


/-- C6: dispatching the empty argument vector on the tree of `CreateRootCommand` calls
the action of the root, returns no error and writes the help text of the root to standard
output, and nothing else; that text contains the name of every top-level command:
`completion`, `version`, and the names of the two collaborator subtrees. -/
theorem C6_no_arguments_print_root_help (v : String) (G M : Tree) :
    ∃ t, returnedTree v G M = some t ∧
      dispatch v G M []
        = some ⟨none, [Event.run [] [],
            Event.write Writer.stdout (InitDefaultHelpCmd t).helpText]⟩ ∧
      Mentions (InitDefaultHelpCmd t).helpText "completion" = true ∧
      Mentions (InitDefaultHelpCmd t).helpText "version" = true ∧
      Mentions (InitDefaultHelpCmd t).helpText G.Name = true ∧
      Mentions (InitDefaultHelpCmd t).helpText M.Name = true := by
  have hc : (InitDefaultHelpCmd (assembled v G M)).cmd.commands
      = [completionTree 0, versionTree v, G, M, helpCommandOf (assembled v G M)] := by
    simp [InitDefaultHelpCmd, assembled, Tree.HasSubCommands, Tree.commands]
  have hh : (InitDefaultHelpCmd (assembled v G M)).helpCommand = some 4 := by
    simp [InitDefaultHelpCmd, assembled, Tree.HasSubCommands, Tree.commands]
  have n1 : (completionTree 0).Name = "completion" := by
    simp [completionTree, Tree.Name, Tree.Use, firstWord_completion]
  have n2 : (versionTree v).Name = "version" := by
    simp [versionTree, Tree.Name, Tree.Use, firstWord_version]
  refine ⟨assembled v G M, returnedTree_eq v G M, ?_, ?_, ?_, ?_, ?_⟩
  · rw [dispatch_eq, ExecuteC_nil]
    have hw : (InitDefaultHelpCmd (assembled v G M)).cmd.outWriter = some Writer.stdout := by
      simp [InitDefaultHelpCmd, assembled, Tree.HasSubCommands, Tree.commands, Tree.outWriter]
    have ha : (InitDefaultHelpCmd (assembled v G M)).ancestors = [] := by
      simp [InitDefaultHelpCmd, assembled, Tree.HasSubCommands, Tree.commands]
    simp [assembled, Tree.Run, RunFn.call, Tree.OutOrStdout, Tree.getOut, hw]
  · rw [← n1]
    exact helpText_mentions_child _ 0 _ (by rw [hc]; rfl) (by rw [hh]; decide)
  · rw [← n2]
    exact helpText_mentions_child _ 1 _ (by rw [hc]; rfl) (by rw [hh]; decide)
  · exact helpText_mentions_child _ 2 _ (by rw [hc]; rfl) (by rw [hh]; decide)
  · exact helpText_mentions_child _ 3 _ (by rw [hc]; rfl) (by rw [hh]; decide)


/-- C7 as amended: for every valid command path `P` in the tree `t` that
`CreateRootCommand` returns (`validPath t P pos = some target`: the names `P` lead from
the root to the command `target` at position `pos`) whose names are plain words (not
empty, not starting with `-`), dispatch reaches the command `l` at `pos`, which is
`target` (for the empty path: the root, to which `ExecuteC` has added the help command),
and does exactly this:
* `target` has an action: its `Run` closure is called once, with `l` as `cmd` and no
  arguments, and the trace is that call followed by what this very closure does: the help
  text of `l` for the root's closure, the generator call with its own shell selector for a
  completion leaf, the version line for `version`, the body of its closure for a command
  of a collaborator. No `Run` of another command is called (`out.actions = [pos]`).
* `target` has no action: no `Run` is called, and the help text of `l` is written. -/
theorem C7_valid_path_runs_its_action (v : String) (G M t : Tree) (P : List String)
    (pos : List Nat) (target : Tree)
    (ht : returnedTree v G M = some t) (hp : validPath t P pos = some target)
    (hw : P.all plainWord = true) :
    ∃ out l, dispatchFlags v G M P = some (Result.done out) ∧
      (InitDefaultHelpCmd t).descend pos = some l ∧
      l.cmd.Run = target.Run ∧ l.cmd.Name = target.Name ∧ (P ≠ [] → l.cmd = target) ∧
      out.actions = (if target.Runnable then [pos] else []) ∧
      out.trace =
        match target.Run with
        | none => [Event.write (l.cmd.OutOrStdout l.ancestors) l.helpText]
        | some RunFn.rootHelp =>
          [Event.run pos [], Event.write (l.cmd.OutOrStdout l.ancestors) l.helpText]
        | some (RunFn.genBash rootCmd) =>
          [Event.run pos [],
            Event.generate Shell.bash rootCmd (l.cmd.OutOrStdout l.ancestors) none]
        | some (RunFn.genZsh rootCmd) =>
          [Event.run pos [],
            Event.generate Shell.zsh rootCmd (l.cmd.OutOrStdout l.ancestors) none]
        | some (RunFn.genFish rootCmd) =>
          [Event.run pos [],
            Event.generate Shell.fish rootCmd (l.cmd.OutOrStdout l.ancestors) (some true)]
        | some (RunFn.genPowerShell rootCmd) =>
          [Event.run pos [],
            Event.generate Shell.powershell rootCmd (l.cmd.OutOrStdout l.ancestors) none]
        | some (RunFn.printVersion w) =>
          [Event.run pos [], Event.write (l.cmd.OutOrStderr l.ancestors) (w ++ "\n")]
        | some RunFn.helpTopic =>
          [Event.run pos [],
            Event.write
              ((InitDefaultHelpCmd t).cmd.OutOrStdout (InitDefaultHelpCmd t).ancestors)
              (InitDefaultHelpCmd t).helpText]
        | some (RunFn.external tag) => [Event.run pos [], Event.external tag] := by
  rw [returnedTree_eq] at ht
  cases ht
  rw [dispatchFlags_eq]
  obtain ⟨l, h1, h2, h3, h4, h5, h6⟩ := ExecuteCFlags_of_Leads _ routerBuilt P pos target
    (Leads_of_validPath P _ pos target hp) hw
  rw [h6]
  refine ⟨_, l, rfl, h1, h2, h3, h4, ?_, ?_⟩
  · rw [h2]
    cases hr : target.Run with
    | none => simp [Outcome.actions, Event.action, Tree.Runnable, hr]
    | some f => simp [Outcome.actions, Event.action, Tree.Runnable, hr, call_no_actions]
  · rw [h2]
    cases hr : target.Run with
    | none => rfl
    | some f =>
      cases f <;> simp [RunFn.call, Find, innerfind, legacyArgs_nil]

/-- C7 as amended, at the path `version`: the one action called is that of `version`, and
the one thing written is the version line; the root's help action does not run. -/
theorem C7_witness_version :
    validPath (assembled "1.0" exampleGame exampleMetadata) ["version"] [1]
        = some (versionTree "1.0") ∧
      ["version"].all plainWord = true ∧
      ∃ out, dispatchFlags "1.0" exampleGame exampleMetadata ["version"]
          = some (Result.done out) ∧
        out.actions = [[1]] ∧
        out.trace = [Event.run [1] [], Event.write Writer.stdout "1.0\n"] := by
  refine ⟨rfl, by decide, ?_⟩
  obtain ⟨out, l, h1, h2, _, _, _, h6, h7⟩ :=
    C7_valid_path_runs_its_action "1.0" exampleGame exampleMetadata _ ["version"] [1]
      (versionTree "1.0") (returnedTree_eq _ _ _) rfl (by decide)
  refine ⟨out, h1, ?_, ?_⟩
  · rw [h6]; rfl
  · rw [h7]
    simp only [Located.descend, Located.child, root_commands, List.getElem?_cons_succ,
      List.getElem?_cons_zero, Option.some.injEq] at h2
    subst h2
    simp [versionTree_Run, Tree.OutOrStderr,
      getOut_inherited _ _ _ _ (versionTree_outWriter "1.0"), root_ancestors,
      getOut_own _ _ _ _ (root_outWriter "1.0" exampleGame exampleMetadata)]

/-- C7 fails at a command whose name is not a plain word. Command lookup passes over an
empty word and over a word that starts with `-`; the command that bears it is not reached.
* `namelessGame`, attached as third child of the root, has an action, and the names `[""]`
  lead from the root to it; yet dispatching `[""]` calls the action of the root, with the
  word as argument, and writes the root's help text.
* `dashGame`, in the same place, has an action, and the names `["--fast"]` lead to it; yet
  dispatching `["--fast"]` calls no action: the root rejects the word as an unknown flag. -/
theorem C7_counterexample_name_not_plain :
    validPath (assembled "1.0" namelessGame exampleMetadata) [""] [2] = some namelessGame ∧
      namelessGame.Run = some (RunFn.external 7) ∧
      dispatchFlags "1.0" namelessGame exampleMetadata [""]
        = some (Result.done ⟨none, [Event.run [] [""],
            Event.write Writer.stdout
              (InitDefaultHelpCmd (assembled "1.0" namelessGame exampleMetadata)).helpText]⟩) ∧
      validPath (assembled "1.0" dashGame exampleMetadata) ["--fast"] [2] = some dashGame ∧
      dashGame.Run = some (RunFn.external 8) ∧
      dispatchFlags "1.0" dashGame exampleMetadata ["--fast"]
        = some (Result.flagError ⟨[], "--fast", Writer.stderr, Writer.stdout,
            (InitDefaultHelpCmd (assembled "1.0" dashGame exampleMetadata)).UsageString true
              ++ "\n"⟩) := by
  refine ⟨rfl, rfl, ?_, rfl, rfl, ?_⟩
  · rw [dispatchFlags_eq]
    have hne : (InitDefaultHelpCmd
        (assembled "1.0" namelessGame exampleMetadata)).cmd.commands.isEmpty = false := by
      rw [root_commands]; rfl
    simp [ExecuteCFlags, hiddenRequest, List.find?, plainWord, innerfindFlags, hne,
      legacyArgs, scanFlags, flagLike, root_Run, root_pos, root_ancestors, RunFn.call,
      Tree.OutOrStdout,
      getOut_own _ _ _ _ (root_outWriter "1.0" namelessGame exampleMetadata)]
  · rw [dispatchFlags_eq]
    have hf : unknownFlag "--fast" = true := by decide
    have hnp : plainWord "--fast" = false := by decide
    have hsc : scanFlags ["--fast"] = FlagScan.unknown "--fast" :=
      scanFlags_unknown [] [] "--fast" rfl hf
    simp only [ExecuteCFlags, hiddenRequest_flag _ "--fast" hf, Bool.false_eq_true, if_false,
      innerfindFlags, hnp, List.all_nil, Bool.or_true, if_true, List.filter_cons,
      List.filter_nil, legacyArgs_nil, hsc, root_OutOrStderr, root_pos]
    rfl

/-- C8: dispatching `["completion"]`, a command without an action of its own, returns no
error and has one effect: the help text of the `completion` command itself is written to
standard output. That text lists its children `bash`, `zsh`, `fish`, `powershell`; no
action is called, so none of the four completion generators is. -/
theorem C8_completion_alone_prints_its_help (v : String) (G M : Tree) :
    ∃ t comp, returnedTree v G M = some t ∧
      (InitDefaultHelpCmd t).child 0 = some comp ∧ comp.cmd.Name = "completion" ∧
      dispatch v G M ["completion"]
        = some ⟨none, [Event.write Writer.stdout comp.helpText]⟩ ∧
      Mentions comp.helpText "bash" = true ∧ Mentions comp.helpText "zsh" = true ∧
      Mentions comp.helpText "fish" = true ∧ Mentions comp.helpText "powershell" = true := by
  refine ⟨assembled v G M,
    ⟨completionTree 0, [(InitDefaultHelpCmd (assembled v G M)).cmd], [0], none⟩,
    returnedTree_eq v G M, ?_, completionTree_Name 0, ?_, ?_, ?_, ?_, ?_⟩
  · simp [Located.child, root_commands, root_ancestors, root_pos]
  · rw [dispatch_eq]
    simp [ExecuteC, supported, plainWord, Find, innerfind, Tree.findNext, findNextFrom,
      root_commands, root_ancestors, root_pos, root_outWriter, completionTree_Name,
      completionTree_Run, completionTree_outWriter, legacyArgs, Tree.OutOrStdout, Tree.getOut]
  · rw [← bashTree_Name 0]
    exact helpText_mentions_child _ 0 _ (by simp [completionTree_commands, completionLeaves])
      (by simp)
  · rw [← zshTree_Name 0]
    exact helpText_mentions_child _ 1 _ (by simp [completionTree_commands, completionLeaves])
      (by simp)
  · rw [← fishTree_Name 0]
    exact helpText_mentions_child _ 2 _ (by simp [completionTree_commands, completionLeaves])
      (by simp)
  · rw [← powershellTree_Name 0]
    exact helpText_mentions_child _ 3 _ (by simp [completionTree_commands, completionLeaves])
      (by simp)


/-- C9 as amended: for every plain word `u` (not empty, not starting with `-`) that is
neither the name of one of the four top-level commands of the tree nor one of the words
cobra itself answers (`help`, `__complete`, `__completeNoDesc`), dispatching `[u]`
returns the error "unknown command", calls no action, and its one effect is the error
report on standard error: nothing is written to standard output. -/
theorem C9_unknown_word_is_an_error (v : String) (G M : Tree) (u : String)
    (hu : plainWord u = true)
    (h1 : u ≠ "completion") (h2 : u ≠ "version") (h3 : u ≠ G.Name) (h4 : u ≠ M.Name)
    (h5 : u ≠ "help") (h6 : u ≠ "__complete") (h7 : u ≠ "__completeNoDesc") :
    dispatch v G M [u]
      = some ⟨some (CobraError.unknownCommand u "tictactoe"),
          [Event.unknownCommand Writer.stderr u "tictactoe"]⟩ := by
  rw [dispatch_eq]
  have hs : supported [u] = true := by
    simp [supported, hu, h6, h7]
  simp [ExecuteC, hs, Find, innerfind, root_findNext_none v G M u h1 h2 h3 h4 h5, legacyArgs,
    root_HasSubCommands, root_ancestors, Tree.CommandPath, root_Name]


/-- C9 as amended, at the word `nonexistent`. -/
theorem C9_witness_nonexistent :
    dispatch "1.0" exampleGame exampleMetadata ["nonexistent"]
      = some ⟨some (CobraError.unknownCommand "nonexistent" "tictactoe"),
          [Event.unknownCommand Writer.stderr "nonexistent" "tictactoe"]⟩ :=
  C9_unknown_word_is_an_error "1.0" exampleGame exampleMetadata "nonexistent" (by decide)
    (by decide) (by decide)
    (by rw [exampleGame_Name]; decide) (by rw [exampleMetadata_Name]; decide) (by decide)
    (by decide) (by decide)


/-- C9 fails at the word `help`: it is a plain word and names none of the four top-level
commands of the tree, yet dispatch returns no error, calls an action (that of the help
command cobra adds) and writes to standard output. -/
theorem C9_counterexample_help :
    plainWord "help" = true ∧
      "help" ∉ ["completion", "version", exampleGame.Name, exampleMetadata.Name] ∧
      ∃ text, dispatch "1.0" exampleGame exampleMetadata ["help"]
        = some ⟨none, [Event.run [4] [], Event.write Writer.stdout text]⟩ := by
  refine ⟨by decide, by rw [exampleGame_Name, exampleMetadata_Name]; decide, ?_⟩
  refine ⟨(InitDefaultHelpCmd (assembled "1.0" exampleGame exampleMetadata)).helpText, ?_⟩
  rw [dispatch_eq]
  have hf : (InitDefaultHelpCmd (assembled "1.0" exampleGame exampleMetadata)).cmd.findNext "help"
      = some (4, helpCommandOf (assembled "1.0" exampleGame exampleMetadata)) := by
    simp [Tree.findNext, root_commands, findNextFrom, completionTree_Name, versionTree_Name,
      helpCommandOf_Name, exampleGame_Name, exampleMetadata_Name]
  simp [ExecuteC, supported, plainWord, Find, innerfind, hf, helpCommandOf_commands,
    helpCommandOf_Run, legacyArgs, Tree.HasSubCommands, root_ancestors, root_pos, RunFn.call,
    Tree.OutOrStdout, getOut_own _ _ _ _ (root_outWriter "1.0" exampleGame exampleMetadata)]


/-- C10 as amended: what follows the path to a command that `cmd.go` builds. `pre` are
plain words (not empty, not starting with `-`), `f` is a flag the command does not have,
`post` and `tail` are any words (`tail` without a plain word).
* Plain words after the root: the first, when it names no command, is an unknown command;
  dispatch returns the error and calls no action.
* Plain words below the root are no error: after `version` and after a completion leaf
  the action runs, with these words as arguments; after `completion`, a word `u` that
  names none of its children makes dispatch write the help text of `completion` to
  standard output.
* An unknown flag as the first flag-like word after `version` or a completion leaf, or
  after `completion` and a word that names none of its children, or directly after
  `completion` or the root: dispatch returns the error of flag parsing, reports it on
  standard error and writes the usage of the matched command (to the output of the root,
  standard output); no action is called. -/
theorem C10_words_after_a_matched_command (v : String) (G M : Tree)
    (pre post : List String) (f : String)
    (hr : pre.all plainWord = true) (hf : unknownFlag f = true) :
    ∃ t comp, returnedTree v G M = some t ∧ (InitDefaultHelpCmd t).child 0 = some comp ∧
      (∀ u, plainWord u = true →
          u ∉ ["completion", "version", G.Name, M.Name, "help", "__complete",
            "__completeNoDesc"] →
          dispatch v G M (u :: pre)
            = some ⟨some (CobraError.unknownCommand u "tictactoe"),
                [Event.unknownCommand Writer.stderr u "tictactoe"]⟩) ∧
      dispatch v G M ("version" :: pre)
        = some ⟨none, [Event.run [1] pre, Event.write Writer.stdout (v ++ "\n")]⟩ ∧
      dispatch v G M ("completion" :: "bash" :: pre)
        = some ⟨none, [Event.run [0, 0] pre,
            Event.generate Shell.bash 0 Writer.stdout none]⟩ ∧
      dispatch v G M ("completion" :: "zsh" :: pre)
        = some ⟨none, [Event.run [0, 1] pre,
            Event.generate Shell.zsh 0 Writer.stdout none]⟩ ∧
      dispatch v G M ("completion" :: "fish" :: pre)
        = some ⟨none, [Event.run [0, 2] pre,
            Event.generate Shell.fish 0 Writer.stdout (some true)]⟩ ∧
      dispatch v G M ("completion" :: "powershell" :: pre)
        = some ⟨none, [Event.run [0, 3] pre,
            Event.generate Shell.powershell 0 Writer.stdout none]⟩ ∧
      (∀ u, plainWord u = true → u ∉ ["bash", "zsh", "fish", "powershell"] →
          dispatch v G M ("completion" :: u :: pre)
            = some ⟨none, [Event.write Writer.stdout comp.helpText]⟩) ∧
      (∀ x ∈ [(["version"], [1]), (["completion", "bash"], [0, 0]),
            (["completion", "zsh"], [0, 1]), (["completion", "fish"], [0, 2]),
            (["completion", "powershell"], [0, 3])],
          ∃ l, (InitDefaultHelpCmd t).descend x.2 = some l ∧
            dispatchFlags v G M (x.1 ++ (pre ++ f :: post))
              = some (Result.flagError
                  ⟨x.2, f, Writer.stderr, Writer.stdout, l.UsageString true ++ "\n"⟩)) ∧
      (∀ u, plainWord u = true → u ∉ ["bash", "zsh", "fish", "powershell"] →
          dispatchFlags v G M ("completion" :: u :: (pre ++ f :: post))
            = some (Result.flagError
                ⟨[0], f, Writer.stderr, Writer.stdout, comp.UsageString true ++ "\n"⟩)) ∧
      (∀ tail, tail.all (fun s => !plainWord s) = true →
          dispatchFlags v G M ("completion" :: f :: tail)
              = some (Result.flagError
                  ⟨[0], f, Writer.stderr, Writer.stdout, comp.UsageString true ++ "\n"⟩) ∧
            dispatchFlags v G M (f :: tail)
              = some (Result.flagError
                  ⟨[], f, Writer.stderr, Writer.stdout,
                    (InitDefaultHelpCmd t).UsageString true ++ "\n"⟩)) := by
  have hnp := flagLike_not_plainWord f (unknownFlag_flagLike f hf)
  have hout := getOut_own _ ([] : List Tree) Writer.stdout _ (root_outWriter v G M)
  have hout2 := getOut_own _ ([] : List Tree) Writer.stderr _ (root_outWriter v G M)
  have hbelow : (⟨completionTree 0, (InitDefaultHelpCmd (assembled v G M)).cmd
      :: (InitDefaultHelpCmd (assembled v G M)).ancestors,
      (InitDefaultHelpCmd (assembled v G M)).pos ++ [0], none⟩ : Located).ancestors ≠ [] := by
    simp
  refine ⟨assembled v G M,
    ⟨completionTree 0, [(InitDefaultHelpCmd (assembled v G M)).cmd], [0], none⟩,
    returnedTree_eq v G M, ?_, ?_, ?_, ?_, ?_, ?_, ?_, ?_, ?_, ?_, ?_⟩
  · simp [Located.child, root_commands, root_ancestors, root_pos]
  · intro u hu hne
    simp only [List.mem_cons, List.mem_singleton, List.not_mem_nil, or_false, not_or] at hne
    obtain ⟨h1, h2, h3, h4, h5, h6, h7⟩ := hne
    rw [dispatch_eq]
    have hs := supported_cons u pre hu h6 h7 hr
    simp [ExecuteC, hs, Find, innerfind, root_findNext_none v G M u h1 h2 h3 h4 h5, legacyArgs,
      root_HasSubCommands, root_ancestors, Tree.CommandPath, root_Name]
  · rw [dispatch_eq]
    have hs := supported_cons "version" pre (by decide) (by decide) (by decide) hr
    simp [ExecuteC, hs, Find, innerfind, root_findNext_version, innerfind_leaf,
      versionTree_commands, versionTree_Run, legacyArgs, Tree.HasSubCommands, root_ancestors,
      root_pos, RunFn.call, Tree.OutOrStderr,
      getOut_inherited _ _ _ _ (versionTree_outWriter v), hout2]
  · rw [dispatch_eq]
    have hs := supported_cons "completion" ("bash" :: pre) (by decide) (by decide)
      (by decide)
      (by simp only [List.all_cons, hr, Bool.and_true]; decide)
    have hf : (completionTree 0).findNext "bash" = some (0, bashTree 0) := by
      simp [Tree.findNext, completionTree_commands, completionLeaves, findNextFrom,
        bashTree_Name, zshTree_Name, fishTree_Name, powershellTree_Name]
    have hl : (bashTree 0).commands = [] := rfl
    have ho : (bashTree 0).outWriter = none := rfl
    have hrun : (bashTree 0).Run = some (RunFn.genBash 0) := rfl
    simp [ExecuteC, hs, Find, innerfind, root_findNext_completion, hf, innerfind_leaf, hl, hrun,
      legacyArgs, Tree.HasSubCommands, root_ancestors, root_pos, RunFn.call, Tree.OutOrStdout,
      getOut_inherited _ _ _ _ ho, getOut_inherited _ _ _ _ (completionTree_outWriter 0), hout]
  · rw [dispatch_eq]
    have hs := supported_cons "completion" ("zsh" :: pre) (by decide) (by decide)
      (by decide)
      (by simp only [List.all_cons, hr, Bool.and_true]; decide)
    have hf : (completionTree 0).findNext "zsh" = some (1, zshTree 0) := by
      simp [Tree.findNext, completionTree_commands, completionLeaves, findNextFrom,
        bashTree_Name, zshTree_Name, fishTree_Name, powershellTree_Name]
    have hl : (zshTree 0).commands = [] := rfl
    have ho : (zshTree 0).outWriter = none := rfl
    have hrun : (zshTree 0).Run = some (RunFn.genZsh 0) := rfl
    simp [ExecuteC, hs, Find, innerfind, root_findNext_completion, hf, innerfind_leaf, hl, hrun,
      legacyArgs, Tree.HasSubCommands, root_ancestors, root_pos, RunFn.call, Tree.OutOrStdout,
      getOut_inherited _ _ _ _ ho, getOut_inherited _ _ _ _ (completionTree_outWriter 0), hout]
  · rw [dispatch_eq]
    have hs := supported_cons "completion" ("fish" :: pre) (by decide) (by decide)
      (by decide)
      (by simp only [List.all_cons, hr, Bool.and_true]; decide)
    have hf : (completionTree 0).findNext "fish" = some (2, fishTree 0) := by
      simp [Tree.findNext, completionTree_commands, completionLeaves, findNextFrom,
        bashTree_Name, zshTree_Name, fishTree_Name, powershellTree_Name]
    have hl : (fishTree 0).commands = [] := rfl
    have ho : (fishTree 0).outWriter = none := rfl
    have hrun : (fishTree 0).Run = some (RunFn.genFish 0) := rfl
    simp [ExecuteC, hs, Find, innerfind, root_findNext_completion, hf, innerfind_leaf, hl, hrun,
      legacyArgs, Tree.HasSubCommands, root_ancestors, root_pos, RunFn.call, Tree.OutOrStdout,
      getOut_inherited _ _ _ _ ho, getOut_inherited _ _ _ _ (completionTree_outWriter 0), hout]
  · rw [dispatch_eq]
    have hs := supported_cons "completion" ("powershell" :: pre) (by decide) (by decide)
      (by decide)
      (by simp only [List.all_cons, hr, Bool.and_true]; decide)
    have hf : (completionTree 0).findNext "powershell" = some (3, powershellTree 0) := by
      simp [Tree.findNext, completionTree_commands, completionLeaves, findNextFrom,
        bashTree_Name, zshTree_Name, fishTree_Name, powershellTree_Name]
    have hl : (powershellTree 0).commands = [] := rfl
    have ho : (powershellTree 0).outWriter = none := rfl
    have hrun : (powershellTree 0).Run = some (RunFn.genPowerShell 0) := rfl
    simp [ExecuteC, hs, Find, innerfind, root_findNext_completion, hf, innerfind_leaf, hl, hrun,
      legacyArgs, Tree.HasSubCommands, root_ancestors, root_pos, RunFn.call, Tree.OutOrStdout,
      getOut_inherited _ _ _ _ ho, getOut_inherited _ _ _ _ (completionTree_outWriter 0), hout]
  · intro u hu hne
    rw [dispatch_eq]
    have hs := supported_cons "completion" (u :: pre) (by decide) (by decide) (by decide)
      (by simp only [List.all_cons, hr, Bool.and_true]; exact hu)
    simp [ExecuteC, hs, Find, innerfind, root_findNext_completion,
      completion_findNext_none u hne, completionTree_Run,
      legacyArgs, root_ancestors, root_pos, Tree.OutOrStdout,
      getOut_inherited _ _ _ _ (completionTree_outWriter 0), hout]
  · intro x hx
    simp only [List.mem_cons, List.mem_singleton, List.not_mem_nil, or_false] at hx
    rcases hx with e | e | e | e | e <;> subst e
    · exact dispatchFlags_leaf_flag v G M _ _ _ pre post f (Leads_version v G M) (by decide)
        (by simp) rfl (by decide) hr hf
    · exact dispatchFlags_leaf_flag v G M _ _ _ pre post f (Leads_bash v G M) (by decide)
        (by simp) rfl (by decide) hr hf
    · exact dispatchFlags_leaf_flag v G M _ _ _ pre post f (Leads_zsh v G M) (by decide)
        (by simp) rfl (by decide) hr hf
    · exact dispatchFlags_leaf_flag v G M _ _ _ pre post f (Leads_fish v G M) (by decide)
        (by simp) rfl (by decide) hr hf
    · exact dispatchFlags_leaf_flag v G M _ _ _ pre post f (Leads_powershell v G M) (by decide)
        (by simp) rfl (by decide) hr hf
  · intro u hu hne
    rw [dispatchFlags_eq]
    have hh := hiddenRequest_word v G M "completion" (u :: (pre ++ f :: post))
      (by decide) (by decide) (by decide)
    have hsc : scanFlags (u :: (pre ++ f :: post)) = FlagScan.unknown f :=
      scanFlags_unknown (u :: pre) post f
        (by simp only [List.all_cons, hu, hr, Bool.and_self]) hf
    simp only [ExecuteCFlags, hh, Bool.false_eq_true, if_false, innerfindFlags, hu,
      root_findNext_completion, completion_findNext_none u hne, if_true,
      show plainWord "completion" = true by decide,
      legacyArgs_below_root _ _ hbelow, hsc, root_OutOrStderr, root_pos, root_ancestors]
    rfl
  · intro tail htail
    have hsc : scanFlags (f :: tail) = FlagScan.unknown f := scanFlags_unknown [] tail f rfl hf
    constructor
    · rw [dispatchFlags_eq]
      have hh := hiddenRequest_word v G M "completion" (f :: tail)
        (by decide) (by decide) (by decide)
      simp only [ExecuteCFlags, hh, Bool.false_eq_true, if_false, innerfindFlags, hnp,
        root_findNext_completion, if_true, htail, Bool.or_true,
        show plainWord "completion" = true by decide,
        legacyArgs_below_root _ _ hbelow, hsc, root_OutOrStderr, root_pos, root_ancestors]
      rfl
    · rw [dispatchFlags_eq]
      have hh : hiddenRequest (InitDefaultHelpCmd (assembled v G M)) (f :: tail) = false := by
        simp only [hiddenRequest, List.find?, hnp, find_not_plain tail htail]
      simp only [ExecuteCFlags, hh, Bool.false_eq_true, if_false,
        innerfindFlags, hnp, htail, Bool.or_true, if_true, List.filter_cons,
        filter_not_plain tail htail, legacyArgs_nil, hsc, root_OutOrStderr, root_pos]
      rfl

/-- C10 as amended, at the remaining words `extra` and the flag `--bogus`. -/
theorem C10_witness_extra :
    ["extra"].all plainWord = true ∧ unknownFlag "--bogus" = true ∧
      dispatch "1.0" exampleGame exampleMetadata ["completion", "bash", "extra"]
        = some ⟨none, [Event.run [0, 0] ["extra"],
            Event.generate Shell.bash 0 Writer.stdout none]⟩ ∧
      ∃ usage, dispatchFlags "1.0" exampleGame exampleMetadata ["version", "extra", "--bogus"]
        = some (Result.flagError ⟨[1], "--bogus", Writer.stderr, Writer.stdout, usage⟩) := by
  obtain ⟨t, comp, _, _, _, _, h3, _, _, _, _, h8, _⟩ :=
    C10_words_after_a_matched_command "1.0" exampleGame exampleMetadata ["extra"] [] "--bogus" (by decide) (by decide)
  refine ⟨by decide, by decide, h3, ?_⟩
  obtain ⟨l, _, h⟩ := h8 (["version"], [1]) (by simp)
  exact ⟨_, h⟩

/-- C10 fails at `version extra`: the word `extra` follows the longest matching path
`version`, yet dispatch returns no error, calls the action of `version` with `extra` as
argument, and the version line is written. -/
theorem C10_counterexample_version_extra :
    dispatch "1.0" exampleGame exampleMetadata ["version", "extra"]
      = some ⟨none, [Event.run [1] ["extra"], Event.write Writer.stdout "1.0\n"]⟩ := by
  rw [dispatch_eq]
  simp [ExecuteC, supported, plainWord, Find, innerfind, Tree.findNext, root_commands,
    findNextFrom, completionTree_Name, versionTree_Name, versionTree_commands, versionTree_Run,
    legacyArgs, Tree.HasSubCommands, root_ancestors, root_pos, RunFn.call, Tree.OutOrStderr,
    getOut_inherited _ _ _ _ (versionTree_outWriter "1.0"),
    getOut_own _ _ _ _ (root_outWriter "1.0" exampleGame exampleMetadata)]


end TicTacToe
